import Mathlib

/-!
# Calki: parallel midpoint-rule estimate of pi

A shallow embedding of `calki.cpp`.

* C++ `int` values are Lean `Int`s in the 32-bit signed range.  The definitions with the
  suffix `32` (`strideLoop32`, `calculate_pi32`, `visited32`, `main32`) are the program: the
  update `i += num_threads` is evaluated in 32-bit two's-complement arithmetic.  The
  definitions without the suffix are the same code over unbounded integers; they are the
  reference the program is compared with and agree with it exactly while
  `num_intervals - 1 + num_threads ≤ 2147483647`.
* C++ `double` values are elements of an arbitrary carrier `α` with the operations the
  program uses, collected in `Arith α`; no law is assumed about them, so every result stated
  for an arbitrary `Arith` holds for IEEE doubles as well.  `ratArith` is exact rational
  arithmetic, `doubleArith` is binary64 arithmetic with rounding to nearest on the
  normal range.
* Loops whose termination depends on the data take a `fuel` argument and return `none` when
  it runs out.
-/

namespace Calki

/-! ## Arithmetic on `double` -/

/-- The `double` operations used by the program: conversion from `int`, `+`, `*`, `/` and the
literals `0.0`, `0.5`, `1.0`, `4.0`. -/
structure Arith (α : Type) where
  ofInt : Int → α
  add : α → α → α
  mul : α → α → α
  div : α → α → α
  zero : α
  half : α
  one : α
  four : α

/-- Exact rational arithmetic. -/
def ratArith : Arith ℚ where
  ofInt := fun i => (i : ℚ)
  add := fun a b => a + b
  mul := fun a b => a * b
  div := fun a b => a / b
  zero := 0
  half := 1 / 2
  one := 1
  four := 4

/-- `struct ThreadData`. -/
structure ThreadData (α : Type) where
  thread_id : Int
  num_threads : Int
  num_intervals : Int
  step : α
  partial_sum : α
deriving DecidableEq

/-- `inline double f(double x) { return 4.0 / (1.0 + x * x); }` -/
def f {α : Type} (A : Arith α) (x : α) : α :=
  A.div A.four (A.add A.one (A.mul x x))

/-! ## The strided loop of `calculate_pi` -/

/-- `for (int i = i0; i < n; i += t) s = body i s;` over unbounded integers, the
reference for `strideLoop32`.  `none` when the fuel runs out before the test `i < n`
fails. -/
def strideLoop {σ : Type} (n t : Int) (body : Int → σ → σ) : Nat → Int → σ → Option σ
  | 0, _, _ => none
  | fuel + 1, i, s =>
    if i < n then strideLoop n t body fuel (i + t) (body i s) else some s

/-- Reduction of an integer to the 32-bit signed range (two's complement). -/
def wrap32 (x : Int) : Int :=
  (x + 2147483648) % 4294967296 - 2147483648

/-- `for (int i = i0; i < n; i += t) s = body i s;` as the program runs it: the update
`i += t` is evaluated in 32-bit signed arithmetic.  `none` when the fuel runs out before
the test `i < n` fails. -/
def strideLoop32 {σ : Type} (n t : Int) (body : Int → σ → σ) : Nat → Int → σ → Option σ
  | 0, _, _ => none
  | fuel + 1, i, s =>
    if i < n then strideLoop32 n t body fuel (wrap32 (i + t)) (body i s) else some s

/-- Body of the loop of `calculate_pi`:
`double x = (i + 0.5) * data->step; sum += f(x);` -/
def loopBody {α : Type} (A : Arith α) (step : α) (i : Int) (sum : α) : α :=
  A.add sum (f A (A.mul (A.add (A.ofInt i) A.half) step))

/-- `calculate_pi` over unbounded integers, the reference for `calculate_pi32`. -/
def calculate_pi {α : Type} (A : Arith α) (fuel : Nat) (data : ThreadData α) :
    Option (ThreadData α) :=
  (strideLoop data.num_intervals data.num_threads (loopBody A data.step) fuel
      data.thread_id A.zero).map
    (fun sum => { data with partial_sum := sum })

/-- `void calculate_pi(ThreadData* data)`: the record after the call, the loop counter
`int i` being 32 bits wide. -/
def calculate_pi32 {α : Type} (A : Arith α) (fuel : Nat) (data : ThreadData α) :
    Option (ThreadData α) :=
  (strideLoop32 data.num_intervals data.num_threads (loopBody A data.step) fuel
      data.thread_id A.zero).map
    (fun sum => { data with partial_sum := sum })

/-- The index log of the loop over unbounded integers, the reference for `visited32`. -/
def visited {α : Type} (fuel : Nat) (data : ThreadData α) : Option (List Int) :=
  strideLoop data.num_intervals data.num_threads (fun i l => l ++ [i]) fuel data.thread_id []

/-- The indices at which the loop of `calculate_pi` runs its body for the record `data`, in
the order of the iterations: the loop (32-bit counter) with the body replaced by a log of
`i`. -/
def visited32 {α : Type} (fuel : Nat) (data : ThreadData α) : Option (List Int) :=
  strideLoop32 data.num_intervals data.num_threads (fun i l => l ++ [i]) fuel data.thread_id []

/-- The indices at which the loop `for (i = i0; i < n; i += t)` (32-bit counter) runs its
body during its first `k` iterations, whether or not the loop ends after them. -/
def visitedPrefix32 (n t : Int) : Nat → Int → List Int
  | 0, _ => []
  | k + 1, i => if i < n then i :: visitedPrefix32 n t k (wrap32 (i + t)) else []

/-- The indices visited by `calculate_pi` on `data` during the first `k` iterations. -/
def visitedWithin32 {α : Type} (k : Nat) (data : ThreadData α) : List Int :=
  visitedPrefix32 data.num_intervals data.num_threads k data.thread_id

/-- The values stored into `data->partial_sum` by a call of `calculate_pi` that has been
given `fuel` tests of the loop condition: the body of the loop assigns only the locals `x`
and `sum`, and the one store to the record, `data->partial_sum = sum;`, follows the loop,
so nothing has been stored while the loop is running. -/
def calculate_pi_stores32 {α : Type} (A : Arith α) (fuel : Nat) (data : ThreadData α) :
    List α :=
  match strideLoop32 data.num_intervals data.num_threads (loopBody A data.step) fuel
      data.thread_id A.zero with
  | none => []
  | some sum => [sum]

/-- The index set the specification assigns to worker `w`: the increasing enumeration of
the `i` in `[0, N)` with `i mod T = w`. -/
def stridedSubset (w T N : Nat) : List Int :=
  ((List.range N).filter (fun i => i % T = w)).map (fun (i : Nat) => (i : Int))

/-! ## Command line, output and `main` -/

/-- The white-space characters skipped by `atoi` (`isspace` in the C locale). -/
def isSpace (c : Char) : Bool :=
  c = ' ' || c = '\t' || c = '\n' || c = '\r' || c.toNat = 11 || c.toNat = 12

/-- Value of the longest run of decimal digits at the head of `cs`, continuing from `acc`. -/
def digitsValue : Int → List Char → Int
  | acc, [] => acc
  | acc, c :: cs =>
    if c.isDigit then digitsValue (acc * 10 + ((c.toNat : Int) - 48)) cs else acc

/-- Saturation to the range of `long` (64 bits). -/
def clampLong (x : Int) : Int :=
  if x < -9223372036854775808 then -9223372036854775808
  else if 9223372036854775807 < x then 9223372036854775807 else x

/-- The conversion `strtol(s, NULL, 10)` of the C library: leading white space is skipped,
one optional sign is read, then the longest run of decimal digits is converted; the result
is 0 when no digit is found there, and `LONG_MIN` or `LONG_MAX` when the value is out of
the range of `long`. -/
def strtol (s : String) : Int :=
  match s.toList.dropWhile isSpace with
  | '-' :: cs => clampLong (- digitsValue 0 cs)
  | '+' :: cs => clampLong (digitsValue 0 cs)
  | cs => clampLong (digitsValue 0 cs)

/-- The conversion `std::atoi`, which `main` applies to `argv[1]` and `argv[2]`.  C leaves
the result undefined when the value is not representable as an `int`; the model is the
library's `(int) strtol(s, NULL, 10)` with 64-bit `long`, the conversion to `int` keeping
the low 32 bits, as glibc and GCC do on x86-64. -/
def atoi (s : String) : Int :=
  wrap32 (strtol s)

/-- One item inserted into an output stream with `<<`. -/
inductive Out (α : Type) where
  | text (s : String)
  | num (x : α)
  | endl
deriving DecidableEq

/-- What a run of `main` leaves behind: the exit status, the two output streams, the number
of threads created (`threads.size()`) and the final contents of `thread_data`. -/
structure Outcome (α : Type) where
  exit_code : Int
  stdout : List (Out α)
  stderr : List (Out α)
  threads : Nat
  thread_data : List (ThreadData α)
deriving DecidableEq

/-- The records `{ i, num_threads, num_intervals, step, 0.0 }` that `main` stores in
`thread_data[i]` for `i = 0, ..., num_threads - 1`. -/
def initThreadData {α : Type} (A : Arith α) (num_threads num_intervals : Int) (step : α) :
    List (ThreadData α) :=
  (List.range num_threads.toNat).map
    (fun (i : Nat) => ThreadData.mk (i : Int) num_threads num_intervals step A.zero)

/-- Thread `k` runs `worker` on `&thread_data[k]` to completion. -/
def runWorker {α : Type} (worker : ThreadData α → Option (ThreadData α))
    (td : List (ThreadData α)) (k : Nat) : Option (List (ThreadData α)) :=
  match td[k]? with
  | none => none
  | some d => (worker d).map (fun d1 => td.set k d1)

/-- The threads run to completion one after the other in the order `order`. -/
def runWorkers {α : Type} (worker : ThreadData α → Option (ThreadData α))
    (order : List Nat) (td : List (ThreadData α)) : Option (List (ThreadData α)) :=
  order.foldlM (runWorker worker) td

/-- `double pi = 0.0; for (const auto& data : thread_data) pi += data.partial_sum;
pi *= step;` -/
def reduce {α : Type} (A : Arith α) (td : List (ThreadData α)) (step : α) : α :=
  A.mul (td.foldl (fun pi data => A.add pi data.partial_sum) A.zero) step

/-- Outcome of `main` when `argc != 3`. -/
def usageFailure {α : Type} (argv : List String) : Outcome α :=
  { exit_code := 1
    stdout := []
    stderr := [Out.text "Użycie: ", Out.text (argv.headD ""),
               Out.text " <liczba przedziałów> <liczba wątków>", Out.endl]
    threads := 0
    thread_data := [] }

/-- Outcome of `main` when `num_intervals <= 0 || num_threads <= 0`. -/
def valueFailure {α : Type} : Outcome α :=
  { exit_code := 1
    stdout := []
    stderr := [Out.text "Liczba przedziałów i liczba wątków musi być większa od zera.",
               Out.endl]
    threads := 0
    thread_data := [] }

/-- `int main(int argc, char* argv[])`, with `argc = argv.length`.  `parse` stands for
`std::atoi`, `elapsed` for the measured time, and `worker` for the function each thread runs.
The threads share no data and are joined before any partial sum is read; they are run here in
the order of their creation (`runWorkers` takes any other order). -/
def mainWith {α : Type} (A : Arith α) (parse : String → Int) (elapsed : α)
    (worker : ThreadData α → Option (ThreadData α)) (argv : List String) :
    Option (Outcome α) :=
  if argv.length ≠ 3 then
    some (usageFailure argv)
  else
    let num_intervals := parse (argv.getD 1 "")
    let num_threads := parse (argv.getD 2 "")
    if num_intervals ≤ 0 ∨ num_threads ≤ 0 then
      some valueFailure
    else
      let step := A.div A.one (A.ofInt num_intervals)
      match runWorkers worker (List.range num_threads.toNat)
          (initThreadData A num_threads num_intervals step) with
      | none => none
      | some td =>
        let pi := reduce A td step
        some { exit_code := 0
               stdout := [Out.text "Przybliżona wartość liczby PI: ", Out.num pi, Out.endl,
                          Out.text "Czas obliczeń: ", Out.num elapsed, Out.text " sekund",
                          Out.endl]
               stderr := []
               threads := num_threads.toNat
               thread_data := td }

/-- The program with unbounded loop counters. -/
def main {α : Type} (A : Arith α) (parse : String → Int) (elapsed : α) (fuel : Nat)
    (argv : List String) : Option (Outcome α) :=
  mainWith A parse elapsed (calculate_pi A fuel) argv

/-- The program with 32-bit loop counters. -/
def main32 {α : Type} (A : Arith α) (parse : String → Int) (elapsed : α) (fuel : Nat)
    (argv : List String) : Option (Outcome α) :=
  mainWith A parse elapsed (calculate_pi32 A fuel) argv

/-- The estimate printed on the first line of standard output, if there is one. -/
def estimate {α : Type} (o : Outcome α) : Option α :=
  match o.stdout with
  | _ :: Out.num x :: _ => some x
  | _ => none

/-! ## Reference values -/

/-- Partial sum of worker `w` as the specification describes it: the left-to-right
accumulation, from `0.0`, of `f ((i + 0.5) * step)` over the worker's index set. -/
def partialSum {α : Type} (A : Arith α) (step : α) (w T N : Nat) : α :=
  (stridedSubset w T N).foldl (fun sum i => loopBody A step i sum) A.zero

/-- The midpoint sum `(1/N) * Σ_{i<N} 4 / (1 + ((i + 1/2)/N)^2)` over the rationals. -/
def midpointSum (N : Nat) : ℚ :=
  (1 / (N : ℚ)) * ∑ i in Finset.range N, 4 / (1 + (((i : ℚ) + 1 / 2) / (N : ℚ)) ^ 2)

/-- Recognises the end-of-line item. -/
def isEndl {α : Type} : Out α → Bool
  | Out.endl => true
  | _ => false

/-- The text of a positive integer in decimal: digits only, at least one, not all `0`. -/
def isPositiveDecimal (s : String) : Bool :=
  !s.toList.isEmpty && s.toList.all Char.isDigit && s.toList.any (fun c => c != '0')

/-- The array `td` after the workers in `S` have finished, `g` being the effect of a
worker on its own record. -/
def afterWorkers {α : Type} (g : ThreadData α → ThreadData α) (S : List Nat)
    (td : List (ThreadData α)) : List (ThreadData α) :=
  td.mapIdx (fun j d => if j ∈ S then g d else d)

/-- The contents of `thread_data` once every worker has finished. -/
def finalThreadData {α : Type} (A : Arith α) (T N : Nat) (step : α) : List (ThreadData α) :=
  (List.range T).map
    (fun (w : Nat) => ThreadData.mk (w : Int) (T : Int) (N : Int) step (partialSum A step w T N))

/-- The estimate as the specification describes it: the partial sums of the workers
`0, ..., T-1` added in this order to `0.0`, the total then multiplied by `step = 1.0 / N`. -/
def estimateValue {α : Type} (A : Arith α) (T N : Nat) : α :=
  A.mul
    ((List.range T).foldl
      (fun pi w => A.add pi (partialSum A (A.div A.one (A.ofInt (N : Int))) w T N)) A.zero)
    (A.div A.one (A.ofInt (N : Int)))

/-- Outcome of the run `prog <N> <T>` with `N, T ≥ 1`. -/
def successOutcome {α : Type} (A : Arith α) (elapsed : α) (T N : Nat) : Outcome α :=
  { exit_code := 0
    stdout := [Out.text "Przybliżona wartość liczby PI: ", Out.num (estimateValue A T N),
               Out.endl, Out.text "Czas obliczeń: ", Out.num elapsed, Out.text " sekund",
               Out.endl]
    stderr := []
    threads := T
    thread_data := finalThreadData A T N (A.div A.one (A.ofInt (N : Int))) }

/-- Term of the midpoint sum at index `i`, as the program evaluates it over the rationals. -/
def term (step : ℚ) (i : Int) : ℚ :=
  4 / (1 + ((i : ℚ) + 1 / 2) * step * (((i : ℚ) + 1 / 2) * step))

/-- The values taken by the loop variable `i` of `for (i = i0; i < n; i += t)`, the last one,
which fails the test `i < n`, included; unbounded integers. -/
def counterValues (n t : Int) : Nat → Int → Option (List Int)
  | 0, _ => none
  | fuel + 1, i =>
    if i < n then (counterValues n t fuel (i + t)).map (fun vs => i :: vs) else some [i]

/-- The values taken by the loop variable when `i += t` is evaluated in 32-bit signed
arithmetic. -/
def counterValues32 (n t : Int) : Nat → Int → Option (List Int)
  | 0, _ => none
  | fuel + 1, i =>
    if i < n then (counterValues32 n t fuel (wrap32 (i + t))).map (fun vs => i :: vs)
    else some [i]

/-! ## The loop and its index sequence -/

theorem strideLoop_log_append (n t : Int) (fuel : Nat) (i : Int) (l0 : List Int) :
    strideLoop n t (fun j l => l ++ [j]) fuel i l0 =
      (strideLoop n t (fun j l => l ++ [j]) fuel i []).map (fun l => l0 ++ l) := by
  induction fuel generalizing i l0 with
  | zero => simp [strideLoop]
  | succ k ih =>
    by_cases h : i < n
    · simp only [strideLoop, h, if_true]
      rw [ih (i + t) (l0 ++ [i]), ih (i + t) ([] ++ [i])]
      cases strideLoop n t (fun j l => l ++ [j]) k (i + t) [] <;> simp
    · simp [strideLoop, h]

theorem strideLoop_eq_foldl {σ : Type} (n t : Int) (body : Int → σ → σ) (fuel : Nat) (i : Int)
    (s : σ) :
    strideLoop n t body fuel i s =
      (strideLoop n t (fun j l => l ++ [j]) fuel i []).map
        (fun l => l.foldl (fun acc j => body j acc) s) := by
  induction fuel generalizing i s with
  | zero => simp [strideLoop]
  | succ k ih =>
    by_cases h : i < n
    · simp only [strideLoop, h, if_true]
      rw [ih (i + t) (body i s), strideLoop_log_append n t k (i + t) ([] ++ [i])]
      cases strideLoop n t (fun j l => l ++ [j]) k (i + t) [] <;> simp
    · simp [strideLoop, h]

theorem strideLoop_log_spec (n t : Int) (ht : 1 ≤ t) (fuel : Nat) (i : Int)
    (hfuel : (n - i).toNat + 1 ≤ fuel) :
    ∃ l, strideLoop n t (fun j l => l ++ [j]) fuel i [] = some l ∧
      l.Sorted (· < ·) ∧ ∀ x, x ∈ l ↔ i ≤ x ∧ x < n ∧ t ∣ x - i := by
  induction fuel generalizing i with
  | zero => omega
  | succ k ih =>
    by_cases h : i < n
    · obtain ⟨l, hl, hs, hm⟩ := ih (i + t) (by omega)
      refine ⟨i :: l, ?_, ?_, ?_⟩
      · simp only [strideLoop, h, if_true]
        rw [strideLoop_log_append, hl]
        simp
      · refine List.sorted_cons.2 ⟨fun b hb => ?_, hs⟩
        have := (hm b).1 hb
        omega
      · intro x
        rw [List.mem_cons, hm]
        constructor
        · rintro (rfl | ⟨h1, h2, h3⟩)
          · exact ⟨le_refl _, h, by simp⟩
          · refine ⟨by omega, h2, ?_⟩
            have : x - i = (x - (i + t)) + t := by ring
            rw [this]
            exact dvd_add h3 (dvd_refl t)
        · rintro ⟨h1, h2, k1, hk⟩
          by_cases hx : x = i
          · exact Or.inl hx
          · right
            have hk0 : 1 ≤ k1 := by
              by_contra hc
              have hk1 : k1 ≤ 0 := by omega
              have : t * k1 ≤ 0 := by nlinarith
              omega
            refine ⟨by nlinarith, h2, k1 - 1, ?_⟩
            rw [mul_sub, ← hk]
            ring
    · refine ⟨[], by simp [strideLoop, h], List.sorted_nil, ?_⟩
      intro x
      simp only [List.not_mem_nil, false_iff]
      omega

theorem stridedSubset_sorted (w T N : Nat) : (stridedSubset w T N).Sorted (· < ·) := by
  unfold stridedSubset
  refine List.Pairwise.map _ (fun a b hab => ?_)
    (List.Pairwise.sublist (List.filter_sublist _) (List.pairwise_lt_range N))
  exact_mod_cast hab

theorem mem_stridedSubset (w T N : Nat) (x : Int) :
    x ∈ stridedSubset w T N ↔ 0 ≤ x ∧ x < N ∧ x % T = w := by
  unfold stridedSubset
  simp only [List.mem_map, List.mem_filter, List.mem_range, decide_eq_true_eq]
  constructor
  · rintro ⟨a, ⟨h1, h2⟩, rfl⟩
    refine ⟨by omega, by exact_mod_cast h1, ?_⟩
    exact_mod_cast h2
  · rintro ⟨h0, h1, h2⟩
    refine ⟨x.toNat, ⟨by omega, ?_⟩, by omega⟩
    have hx : ((x.toNat : Nat) : Int) = x := Int.toNat_of_nonneg h0
    rw [← hx] at h2
    exact_mod_cast h2

/-- The index sequence of the loop of worker `w < T` is the strided subset of `[0, N)`. -/
theorem visited_eq_stridedSubset {α : Type} (data : ThreadData α) (w T N : Nat)
    (hid : data.thread_id = w) (hnt : data.num_threads = T) (hni : data.num_intervals = N)
    (hw : w < T) (fuel : Nat) (hfuel : N + 1 ≤ fuel) :
    visited fuel data = some (stridedSubset w T N) := by
  obtain ⟨l, hl, hs, hm⟩ := strideLoop_log_spec (N : Int) (T : Int) (by omega) fuel (w : Int)
    (by omega)
  unfold visited
  rw [hid, hnt, hni, hl]
  congr 1
  refine List.eq_of_perm_of_sorted ?_ hs (stridedSubset_sorted w T N)
  refine (List.perm_ext_iff_of_nodup hs.nodup (stridedSubset_sorted w T N).nodup).2 ?_
  intro x
  rw [hm, mem_stridedSubset]
  constructor
  · rintro ⟨h1, h2, k, hk⟩
    refine ⟨by omega, h2, ?_⟩
    have hx : x = (w : Int) + (T : Int) * k := by omega
    rw [hx, Int.add_mul_emod_self_left]
    exact Int.emod_eq_of_lt (by omega) (by omega)
  · rintro ⟨h0, h1, h2⟩
    have hdiv := Int.emod_add_ediv x (T : Int)
    have hq : 0 ≤ x / (T : Int) := Int.ediv_nonneg h0 (by omega)
    have hTq : 0 ≤ (T : Int) * (x / (T : Int)) := mul_nonneg (by omega) hq
    refine ⟨by omega, h1, x / (T : Int), by omega⟩

/-- With enough fuel `calculate_pi` returns, and stores the partial sum of its worker. -/
theorem calculate_pi_eq {α : Type} (A : Arith α) (data : ThreadData α) (w T N : Nat)
    (hid : data.thread_id = w) (hnt : data.num_threads = T) (hni : data.num_intervals = N)
    (hw : w < T) (fuel : Nat) (hfuel : N + 1 ≤ fuel) :
    calculate_pi A fuel data =
      some { data with partial_sum := partialSum A data.step w T N } := by
  have hv := visited_eq_stridedSubset data w T N hid hnt hni hw fuel hfuel
  unfold visited at hv
  unfold calculate_pi
  rw [strideLoop_eq_foldl, hv]
  simp [partialSum]

/-! ## Running the workers -/

theorem afterWorkers_congr {α : Type} (g : ThreadData α → ThreadData α) (S1 S2 : List Nat)
    (td : List (ThreadData α)) (h : ∀ j, j < td.length → (j ∈ S1 ↔ j ∈ S2)) :
    afterWorkers g S1 td = afterWorkers g S2 td := by
  apply List.ext_getElem?
  intro j
  unfold afterWorkers
  rw [List.getElem?_mapIdx, List.getElem?_mapIdx]
  by_cases hj : j < td.length
  · by_cases h1 : j ∈ S1
    · simp [h1, (h j hj).1 h1]
    · have h2 : j ∉ S2 := fun h2 => h1 ((h j hj).2 h2)
      simp [h1, h2]
  · simp [List.getElem?_eq_none (Nat.le_of_not_lt hj)]

theorem runWorker_afterWorkers {α : Type} (worker : ThreadData α → Option (ThreadData α))
    (g : ThreadData α → ThreadData α) (td : List (ThreadData α))
    (hg : ∀ (k : Nat) (d : ThreadData α), td[k]? = some d → worker d = some (g d))
    (S : List Nat) (k : Nat) (hk : k < td.length) (hkS : k ∉ S) :
    runWorker worker (afterWorkers g S td) k = some (afterWorkers g (k :: S) td) := by
  have hget : td[k]? = some td[k] := List.getElem?_eq_getElem hk
  have h1 : (afterWorkers g S td)[k]? = some td[k] := by
    unfold afterWorkers
    rw [List.getElem?_mapIdx, hget]
    simp [hkS]
  unfold runWorker
  rw [h1]
  simp only [hg k td[k] hget, Option.map_some']
  congr 1
  apply List.ext_getElem?
  intro j
  unfold afterWorkers
  rw [List.getElem?_set, List.getElem?_mapIdx, List.getElem?_mapIdx]
  by_cases hjk : k = j
  · subst hjk
    simp [hk, hget]
  · have hjk2 : ¬ j = k := fun h => hjk h.symm
    simp [hjk, hjk2]

theorem runWorkers_afterWorkers {α : Type} (worker : ThreadData α → Option (ThreadData α))
    (g : ThreadData α → ThreadData α) (td : List (ThreadData α))
    (hg : ∀ (k : Nat) (d : ThreadData α), td[k]? = some d → worker d = some (g d))
    (order : List Nat) (S : List Nat) (hnd : order.Nodup)
    (hord : ∀ k ∈ order, k < td.length ∧ k ∉ S) :
    runWorkers worker order (afterWorkers g S td) = some (afterWorkers g (order ++ S) td) := by
  induction order generalizing S with
  | nil => simp [runWorkers]
  | cons k rest ih =>
    have hk := hord k (List.mem_cons_self _ _)
    have hnd2 := List.nodup_cons.1 hnd
    unfold runWorkers
    rw [List.foldlM_cons, runWorker_afterWorkers worker g td hg S k hk.1 hk.2]
    have := ih (k :: S) hnd2.2 (fun j hj => by
      have hj2 := hord j (List.mem_cons_of_mem _ hj)
      refine ⟨hj2.1, ?_⟩
      intro hmem
      rcases List.mem_cons.1 hmem with h | h
      · exact hnd2.1 (h ▸ hj)
      · exact hj2.2 h)
    unfold runWorkers at this
    simp only [Option.bind_eq_bind, Option.some_bind]
    rw [this]
    congr 1
    apply afterWorkers_congr
    intro j _
    simp only [List.mem_append, List.mem_cons]
    tauto

theorem afterWorkers_nil {α : Type} (g : ThreadData α → ThreadData α)
    (td : List (ThreadData α)) : afterWorkers g [] td = td := by
  apply List.ext_getElem?
  intro j
  unfold afterWorkers
  rw [List.getElem?_mapIdx]
  simp

theorem afterWorkers_all {α : Type} (g : ThreadData α → ThreadData α) (S : List Nat)
    (td : List (ThreadData α)) (h : ∀ j, j < td.length → j ∈ S) :
    afterWorkers g S td = td.map g := by
  apply List.ext_getElem?
  intro j
  unfold afterWorkers
  rw [List.getElem?_mapIdx, List.getElem?_map]
  by_cases hj : j < td.length
  · simp [h j hj]
  · simp [List.getElem?_eq_none (Nat.le_of_not_lt hj)]

/-- Whatever the order in which the workers run, the array ends as `finalThreadData`. -/
theorem runWorkers_init {α : Type} (A : Arith α) (T N : Nat) (step : α) (fuel : Nat)
    (hfuel : N + 1 ≤ fuel) (order : List Nat) (hperm : order.Perm (List.range T)) :
    runWorkers (calculate_pi A fuel) order (initThreadData A (T : Int) (N : Int) step) =
      some (finalThreadData A T N step) := by
  let g : ThreadData α → ThreadData α :=
    fun d => { d with partial_sum := partialSum A d.step d.thread_id.toNat T N }
  have hlen : (initThreadData A (T : Int) (N : Int) step).length = T := by
    simp [initThreadData]
  have hg : ∀ (k : Nat) (d : ThreadData α), (initThreadData A (T : Int) (N : Int) step)[k]? = some d →
      calculate_pi A fuel d = some (g d) := by
    intro k d hkd
    have hk : k < T := by
      have := (List.getElem?_eq_some.1 hkd).1
      rwa [hlen] at this
    simp only [initThreadData, Int.toNat_ofNat, List.getElem?_map,
      List.getElem?_range hk, Option.map_some', Option.some.injEq] at hkd
    subst hkd
    exact calculate_pi_eq A _ k T N rfl rfl rfl hk fuel hfuel
  have hnd : order.Nodup := hperm.nodup_iff.2 (List.nodup_range T)
  have hmem : ∀ k, k ∈ order ↔ k < T := fun k => by rw [hperm.mem_iff, List.mem_range]
  have h := runWorkers_afterWorkers (calculate_pi A fuel) g _ hg order [] hnd
    (fun k hk => ⟨by rw [hlen]; exact (hmem k).1 hk, List.not_mem_nil k⟩)
  rw [afterWorkers_nil] at h
  rw [h, afterWorkers_all g _ _ (fun j hj => by
    rw [hlen] at hj
    simp [(hmem j).2 hj])]
  simp [initThreadData, finalThreadData, g]

/-! ## The successful run of `main` -/

theorem reduce_finalThreadData {α : Type} (A : Arith α) (T N : Nat) :
    reduce A (finalThreadData A T N (A.div A.one (A.ofInt (N : Int))))
      (A.div A.one (A.ofInt (N : Int))) = estimateValue A T N := by
  simp [reduce, finalThreadData, estimateValue, List.foldl_map]

theorem main_success {α : Type} (A : Arith α) (parse : String → Int) (elapsed : α)
    (fuel : Nat) (argv : List String) (T N : Nat) (hlen : argv.length = 3)
    (hN : parse (argv.getD 1 "") = (N : Int)) (hT : parse (argv.getD 2 "") = (T : Int))
    (hN1 : 1 ≤ N) (hT1 : 1 ≤ T) (hfuel : N + 1 ≤ fuel) :
    main A parse elapsed fuel argv = some (successOutcome A elapsed T N) := by
  have hpos : ¬ ((N : Int) ≤ 0 ∨ (T : Int) ≤ 0) := by omega
  unfold main mainWith
  simp only [hlen, ne_eq, not_true_eq_false, if_false, hN, hT, hpos, Int.toNat_ofNat]
  rw [runWorkers_init A T N _ fuel hfuel (List.range T) (List.Perm.refl _)]
  simp only [reduce_finalThreadData]
  rfl

theorem stridedSubset_flatMap_perm (T N : Nat) (hT : 1 ≤ T) :
    ((List.range T).flatMap (fun w => stridedSubset w T N)).Perm
      ((List.range N).map (fun (i : Nat) => (i : Int))) := by
  have hinj : Function.Injective (fun (i : Nat) => (i : Int)) := fun a b h => by
    simpa using h
  refine (List.perm_ext_iff_of_nodup ?_ ((List.nodup_range N).map hinj)).2 ?_
  · refine List.nodup_flatMap.2 ⟨fun w _ => (stridedSubset_sorted w T N).nodup, ?_⟩
    refine List.Pairwise.imp ?_ (List.nodup_range T)
    intro a b hab x hxa hxb
    have h1 := ((mem_stridedSubset a T N x).1 hxa).2.2
    have h2 := ((mem_stridedSubset b T N x).1 hxb).2.2
    exact hab (by omega)
  · intro x
    simp only [List.mem_flatMap, List.mem_range, mem_stridedSubset, List.mem_map]
    constructor
    · rintro ⟨w, _, h0, h1, _⟩
      exact ⟨x.toNat, by omega, by omega⟩
    · rintro ⟨a, ha, rfl⟩
      refine ⟨a % T, Nat.mod_lt _ (by omega), by omega, by omega, ?_⟩
      exact_mod_cast rfl

/-! ## Exact arithmetic -/

theorem foldl_add_eq_sum {β : Type} (g : β → ℚ) (l : List β) (a : ℚ) :
    l.foldl (fun s i => s + g i) a = a + (l.map g).sum := by
  induction l generalizing a with
  | nil => simp
  | cons b l ih => simp [ih, add_assoc]

theorem partialSum_rat (step : ℚ) (w T N : Nat) :
    partialSum ratArith step w T N = ((stridedSubset w T N).map (term step)).sum := by
  have h := foldl_add_eq_sum (term step) (stridedSubset w T N) 0
  rw [zero_add] at h
  rw [← h]
  rfl

theorem sum_map_flatMap {β γ : Type} (g : γ → ℚ) (F : β → List γ) (l : List β) :
    ((l.flatMap F).map g).sum = (l.map (fun b => ((F b).map g).sum)).sum := by
  induction l with
  | nil => simp
  | cons b l ih => simp [List.flatMap_cons, ih]

theorem sum_map_range (h : Nat → ℚ) (n : Nat) :
    ((List.range n).map h).sum = ∑ i in Finset.range n, h i := by
  induction n with
  | zero => simp
  | succ n ih => simp [List.range_succ, Finset.sum_range_succ, ih]

/-- Over the rationals the sum of all partial sums is the sum over all indices. -/
theorem sum_partialSum_rat (step : ℚ) (T N : Nat) (hT : 1 ≤ T) :
    (List.range T).foldl (fun pi w => pi + partialSum ratArith step w T N) 0 =
      ∑ i in Finset.range N, term step (i : Int) := by
  rw [foldl_add_eq_sum (fun w => partialSum ratArith step w T N) (List.range T) 0, zero_add]
  have h1 : (List.range T).map (fun w => partialSum ratArith step w T N) =
      (List.range T).map (fun w => ((stridedSubset w T N).map (term step)).sum) :=
    List.map_congr_left (fun w _ => partialSum_rat step w T N)
  rw [h1, ← sum_map_flatMap (term step) (fun w => stridedSubset w T N) (List.range T)]
  rw [((stridedSubset_flatMap_perm T N hT).map (term step)).sum_eq, List.map_map]
  exact sum_map_range (fun i => term step (i : Int)) N

theorem estimateValue_rat (T N : Nat) (hT : 1 ≤ T) :
    estimateValue ratArith T N = midpointSum N := by
  have h := sum_partialSum_rat (1 / (N : ℚ)) T N hT
  unfold estimateValue midpointSum
  have e1 : ratArith.div ratArith.one (ratArith.ofInt (N : Int)) = 1 / (N : ℚ) := by
    simp [ratArith]
  rw [e1]
  show ((List.range T).foldl (fun pi w => pi + partialSum ratArith (1 / (N : ℚ)) w T N) 0) *
    (1 / (N : ℚ)) = _
  rw [h, mul_comm]
  congr 1
  refine Finset.sum_congr rfl (fun i _ => ?_)
  unfold term
  have : 1 + (((i : Int) : ℚ) + 1 / 2) * (1 / (N : ℚ)) * ((((i : Int) : ℚ) + 1 / 2) * (1 / (N : ℚ)))
      = 1 + (((i : ℚ) + 1 / 2) / (N : ℚ)) ^ 2 := by
    push_cast
    ring
  rw [this]

/-! ## Case analysis of `main` -/

theorem mainWith_usage {α : Type} (A : Arith α) (parse : String → Int) (elapsed : α)
    (worker : ThreadData α → Option (ThreadData α)) (argv : List String)
    (hlen : argv.length ≠ 3) :
    mainWith A parse elapsed worker argv = some (usageFailure argv) := by
  unfold mainWith
  simp [hlen]

theorem mainWith_value {α : Type} (A : Arith α) (parse : String → Int) (elapsed : α)
    (worker : ThreadData α → Option (ThreadData α)) (argv : List String)
    (hlen : argv.length = 3)
    (hval : parse (argv.getD 1 "") ≤ 0 ∨ parse (argv.getD 2 "") ≤ 0) :
    mainWith A parse elapsed worker argv = some valueFailure := by
  unfold mainWith
  simp only [hlen, ne_eq, not_true_eq_false, if_false, hval, if_true]

theorem main_usage {α : Type} (A : Arith α) (parse : String → Int) (elapsed : α)
    (fuel : Nat) (argv : List String) (hlen : argv.length ≠ 3) :
    main A parse elapsed fuel argv = some (usageFailure argv) :=
  mainWith_usage A parse elapsed _ argv hlen

theorem main_value {α : Type} (A : Arith α) (parse : String → Int) (elapsed : α)
    (fuel : Nat) (argv : List String) (hlen : argv.length = 3)
    (hval : parse (argv.getD 1 "") ≤ 0 ∨ parse (argv.getD 2 "") ≤ 0) :
    main A parse elapsed fuel argv = some valueFailure :=
  mainWith_value A parse elapsed _ argv hlen hval

theorem main_valid {α : Type} (A : Arith α) (parse : String → Int) (elapsed : α)
    (fuel : Nat) (argv : List String) (hlen : argv.length = 3)
    (hval : ¬ (parse (argv.getD 1 "") ≤ 0 ∨ parse (argv.getD 2 "") ≤ 0))
    (hfuel : (parse (argv.getD 1 "")).toNat + 1 ≤ fuel) :
    main A parse elapsed fuel argv =
      some (successOutcome A elapsed (parse (argv.getD 2 "")).toNat
        (parse (argv.getD 1 "")).toNat) := by
  have hN : 0 < parse (argv.getD 1 "") := by omega
  have hT : 0 < parse (argv.getD 2 "") := by omega
  exact main_success A parse elapsed fuel argv _ _ hlen
    (Int.toNat_of_nonneg hN.le).symm (Int.toNat_of_nonneg hT.le).symm (by omega) (by omega)
    hfuel

theorem valueFailure_ne_usageFailure {α : Type} (argv : List String) :
    (valueFailure : Outcome α) ≠ usageFailure argv := by
  intro h
  have := congrArg (fun o => o.stderr.length) h
  simp [valueFailure, usageFailure] at this

theorem main_inv {α : Type} (A : Arith α) (parse : String → Int) (elapsed : α)
    (fuel : Nat) (argv : List String) (out : Outcome α)
    (h : main A parse elapsed fuel argv = some out) :
    out = usageFailure argv ∨ out = valueFailure ∨
      ∃ pi td, out =
        { exit_code := 0
          stdout := [Out.text "Przybliżona wartość liczby PI: ", Out.num pi, Out.endl,
                     Out.text "Czas obliczeń: ", Out.num elapsed, Out.text " sekund",
                     Out.endl]
          stderr := []
          threads := (parse (argv.getD 2 "")).toNat
          thread_data := td } := by
  unfold main mainWith at h
  by_cases hlen : argv.length ≠ 3
  · rw [if_pos hlen] at h
    exact Or.inl (Option.some.inj h).symm
  · rw [if_neg hlen] at h
    by_cases hval : parse (argv.getD 1 "") ≤ 0 ∨ parse (argv.getD 2 "") ≤ 0
    · simp only [hval, if_true] at h
      exact Or.inr (Or.inl (Option.some.inj h).symm)
    · simp only [hval, if_false] at h
      right; right
      split at h
      · exact absurd h (by simp)
      · next td _ => exact ⟨_, td, (Option.some.inj h).symm⟩

theorem digitsValue_no_digit (cs : List Char) (h : ∀ c ∈ cs, c.isDigit = false) :
    digitsValue 0 cs = 0 := by
  cases cs with
  | nil => rfl
  | cons c cs => simp [digitsValue, h c (List.mem_cons_self _ _)]

theorem strtol_no_digit (s : String) (h : ∀ c ∈ s.toList, c.isDigit = false) :
    strtol s = 0 := by
  have hsub : ∀ c ∈ s.toList.dropWhile isSpace, c.isDigit = false :=
    fun c hc => h c ((List.dropWhile_sublist isSpace).subset hc)
  unfold strtol
  split
  · next cs heq =>
    rw [heq] at hsub
    rw [digitsValue_no_digit cs (fun c hc => hsub c (List.mem_cons_of_mem _ hc))]
    rfl
  · next cs heq =>
    rw [heq] at hsub
    rw [digitsValue_no_digit cs (fun c hc => hsub c (List.mem_cons_of_mem _ hc))]
    rfl
  · rw [digitsValue_no_digit _ hsub]
    rfl

theorem atoi_no_digit (s : String) (h : ∀ c ∈ s.toList, c.isDigit = false) : atoi s = 0 := by
  unfold atoi
  rw [strtol_no_digit s h]
  rfl

/-! ## The 32-bit loop counter -/

theorem strideLoop32_even_stuck {σ : Type} (body : Int → σ → σ) (fuel : Nat) (i : Int) (s : σ)
    (hev : i % 2 = 0) (hlo : -2147483648 ≤ i) (hhi : i ≤ 2147483647) :
    strideLoop32 2147483647 2 body fuel i s = none := by
  induction fuel generalizing i s with
  | zero => rfl
  | succ k ih =>
    have hlt : i < 2147483647 := by omega
    simp only [strideLoop32, hlt, if_true]
    apply ih
    · unfold wrap32; omega
    · unfold wrap32; omega
    · unfold wrap32; omega

/-! ## Claims -/

/-- C9, at the failing input `prog 2147483647 2`: with the update `i += 2` evaluated in 32-bit
signed arithmetic the loop of worker 0 never reaches `i >= 2147483647`: the counter stays
even, wraps from 2147483646 to -2147483648 and goes on; for no amount of fuel does
`calculate_pi` return, and `main` produces no result. -/
theorem loop32_does_not_terminate {α : Type} (A : Arith α) (elapsed : α) (fuel : Nat) :
    atoi "2147483647" = 2147483647 ∧ wrap32 (2147483646 + 2) = -2147483648 ∧
      calculate_pi32 A fuel
        (ThreadData.mk 0 2 2147483647 (A.div A.one (A.ofInt 2147483647)) A.zero) = none ∧
      main32 A atoi elapsed fuel ["prog", "2147483647", "2"] = none := by
  have hatoi : atoi "2147483647" = 2147483647 := by decide
  have hatoi2 : atoi "2" = 2 := by decide
  have hcalc : calculate_pi32 A fuel
      (ThreadData.mk 0 2 2147483647 (A.div A.one (A.ofInt 2147483647)) A.zero) = none := by
    unfold calculate_pi32
    rw [strideLoop32_even_stuck _ fuel 0 A.zero (by decide) (by decide) (by decide)]
    rfl
  refine ⟨hatoi, by decide, hcalc, ?_⟩
  have hlen : ¬ (["prog", "2147483647", "2"].length ≠ 3) := by decide
  have hval : ¬ ((2147483647 : Int) ≤ 0 ∨ (2 : Int) ≤ 0) := by decide
  have h1 : ["prog", "2147483647", "2"].getD 1 "" = "2147483647" := rfl
  have h2 : ["prog", "2147483647", "2"].getD 2 "" = "2" := rfl
  have h3 : (2 : Int).toNat = 2 := rfl
  unfold main32 mainWith
  rw [if_neg hlen]
  simp only [h1, h2, hatoi, hatoi2, hval, if_false, h3]
  have hrun : runWorkers (calculate_pi32 A fuel) (List.range 2)
      (initThreadData A 2 2147483647 (A.div A.one (A.ofInt 2147483647))) = none := by
    have hr : List.range 2 = [0, 1] := by decide
    have hi : initThreadData A 2 2147483647 (A.div A.one (A.ofInt 2147483647)) =
        [ThreadData.mk 0 2 2147483647 (A.div A.one (A.ofInt 2147483647)) A.zero,
         ThreadData.mk 1 2 2147483647 (A.div A.one (A.ofInt 2147483647)) A.zero] := by
      simp [initThreadData, hr]
    rw [hr, hi]
    simp [runWorkers, runWorker, hcalc]
  rw [hrun]

/-! ## Frame of a worker -/

theorem calculate_pi_fields {α : Type} (A : Arith α) (fuel : Nat) (d r : ThreadData α)
    (h : calculate_pi A fuel d = some r) :
    r.thread_id = d.thread_id ∧ r.num_threads = d.num_threads ∧
      r.num_intervals = d.num_intervals ∧ r.step = d.step ∧
      strideLoop d.num_intervals d.num_threads (loopBody A d.step) fuel d.thread_id A.zero =
        some r.partial_sum := by
  unfold calculate_pi at h
  cases hl : strideLoop d.num_intervals d.num_threads (loopBody A d.step) fuel d.thread_id
      A.zero with
  | none => rw [hl] at h; exact absurd h (by simp)
  | some sum =>
    rw [hl] at h
    have hr := (Option.some.inj h).symm
    subst hr
    exact ⟨rfl, rfl, rfl, rfl, rfl⟩

/-! ## Bounds in exact arithmetic -/

theorem midpoint_bounds (N : Nat) (i : Int) (h0 : 0 ≤ i) (h1 : i < N) :
    0 < ((i : ℚ) + 1 / 2) * (1 / (N : ℚ)) ∧ ((i : ℚ) + 1 / 2) * (1 / (N : ℚ)) < 1 := by
  have hi0 : (0 : ℚ) ≤ (i : ℚ) := by exact_mod_cast h0
  have hi1 : (i : ℚ) + 1 ≤ (N : ℚ) := by exact_mod_cast (show i + 1 ≤ (N : Int) by omega)
  have hN : (0 : ℚ) < (N : ℚ) := by linarith
  constructor
  · positivity
  · rw [mul_one_div, div_lt_one hN]
    linarith

theorem f_bounds (x : ℚ) (h0 : 0 < x) (h1 : x < 1) :
    1 ≤ 1 + x * x ∧ 2 < 4 / (1 + x * x) ∧ 4 / (1 + x * x) < 4 := by
  have hxx : 0 < x * x := mul_pos h0 h0
  have hxx1 : x * x < 1 := by nlinarith
  have hd : (0 : ℚ) < 1 + x * x := by linarith
  refine ⟨by linarith, ?_, ?_⟩
  · rw [lt_div_iff₀ hd]
    linarith
  · rw [div_lt_iff₀ hd]
    linarith

theorem term_pos (step : ℚ) (i : Int) : 0 < term step i := by
  unfold term
  have : 0 ≤ ((i : ℚ) + 1 / 2) * step * (((i : ℚ) + 1 / 2) * step) := mul_self_nonneg _
  positivity

theorem sum_map_term_nonneg (step : ℚ) (l : List Int) : 0 ≤ (l.map (term step)).sum := by
  induction l with
  | nil => simp
  | cons a l ih =>
    have := term_pos step a
    simp only [List.map_cons, List.sum_cons]
    linarith

theorem sum_map_term_pos (step : ℚ) (l : List Int) (hl : l ≠ []) :
    0 < (l.map (term step)).sum := by
  cases l with
  | nil => exact absurd rfl hl
  | cons a l =>
    have h1 := term_pos step a
    have h2 := sum_map_term_nonneg step l
    simp only [List.map_cons, List.sum_cons]
    linarith

theorem stridedSubset_eq_nil_iff (w T N : Nat) (hw : w < T) :
    stridedSubset w T N = [] ↔ N ≤ w := by
  constructor
  · intro h
    by_contra hc
    have hm : (w : Int) ∈ stridedSubset w T N :=
      (mem_stridedSubset w T N _).2 ⟨by omega, by omega, Int.emod_eq_of_lt (by omega) (by omega)⟩
    rw [h] at hm
    exact absurd hm (List.not_mem_nil _)
  · intro h
    apply List.eq_nil_iff_forall_not_mem.2
    intro x hx
    have hx2 := (mem_stridedSubset w T N x).1 hx
    have hdiv := Int.emod_add_ediv x (T : Int)
    have hq : 0 ≤ x / (T : Int) := Int.ediv_nonneg hx2.1 (by omega)
    have hTq : 0 ≤ (T : Int) * (x / (T : Int)) := mul_nonneg (by omega) hq
    omega

theorem midpointSum_bounds (N : Nat) (hN : 1 ≤ N) : 2 < midpointSum N ∧ midpointSum N < 4 := by
  have hNq : (0 : ℚ) < (N : ℚ) := by exact_mod_cast hN
  have hne : (Finset.range N).Nonempty := Finset.nonempty_range_iff.2 (by omega)
  have hterm : ∀ i ∈ Finset.range N,
      2 < 4 / (1 + (((i : ℚ) + 1 / 2) / (N : ℚ)) ^ 2) ∧
        4 / (1 + (((i : ℚ) + 1 / 2) / (N : ℚ)) ^ 2) < 4 := by
    intro i hi
    have hiN : i < N := Finset.mem_range.1 hi
    have hb := midpoint_bounds N (i : Int) (by omega) (by exact_mod_cast hiN)
    rw [mul_one_div] at hb
    have hf := f_bounds _ hb.1 hb.2
    rw [sq]
    exact_mod_cast hf.2
  have hlo : ∑ _i in Finset.range N, (2 : ℚ) <
      ∑ i in Finset.range N, 4 / (1 + (((i : ℚ) + 1 / 2) / (N : ℚ)) ^ 2) :=
    Finset.sum_lt_sum_of_nonempty hne (fun i hi => (hterm i hi).1)
  have hhi : ∑ i in Finset.range N, 4 / (1 + (((i : ℚ) + 1 / 2) / (N : ℚ)) ^ 2) <
      ∑ _i in Finset.range N, (4 : ℚ) :=
    Finset.sum_lt_sum_of_nonempty hne (fun i hi => (hterm i hi).2)
  simp only [Finset.sum_const, Finset.card_range, nsmul_eq_mul] at hlo hhi
  unfold midpointSum
  rw [one_div, ← div_eq_inv_mul]
  constructor
  · rw [lt_div_iff₀ hNq]
    linarith
  · rw [div_lt_iff₀ hNq]
    linarith

/-! ## Iteration counts -/

theorem strideLoop_log_length (n t : Int) (ht : 1 ≤ t) (fuel : Nat) (i : Int)
    (hfuel : (n - i).toNat + 1 ≤ fuel) :
    ∃ l, strideLoop n t (fun j l => l ++ [j]) fuel i [] = some l ∧
      (l.length : Int) = if i < n then (n - i + t - 1) / t else 0 := by
  induction fuel generalizing i with
  | zero => omega
  | succ k ih =>
    by_cases h : i < n
    · obtain ⟨l, hl, hlen⟩ := ih (i + t) (by omega)
      refine ⟨i :: l, ?_, ?_⟩
      · simp only [strideLoop, h, if_true]
        rw [strideLoop_log_append, hl]
        simp
      · rw [if_pos h]
        have hsplit : n - i + t - 1 = (n - i - 1) + 1 * t := by ring
        rw [hsplit, Int.add_mul_ediv_right _ _ (by omega : t ≠ 0)]
        simp only [List.length_cons, Nat.cast_add, Nat.cast_one]
        rw [hlen]
        by_cases h2 : i + t < n
        · rw [if_pos h2]
          have : n - (i + t) + t - 1 = n - i - 1 := by ring
          rw [this]
        · rw [if_neg h2]
          have : (n - i - 1) / t = 0 := Int.ediv_eq_zero_of_lt (by omega) (by omega)
          rw [this]
    · exact ⟨[], by simp [strideLoop, h], by simp [h]⟩

theorem stridedSubset_length (w T N : Nat) (hw : w < T) :
    (stridedSubset w T N).length = if w < N then (N - w + T - 1) / T else 0 := by
  obtain ⟨l, hl, hlen⟩ := strideLoop_log_length (N : Int) (T : Int) (by omega) (N + 1) (w : Int)
    (by omega)
  have hv := visited_eq_stridedSubset (ThreadData.mk (w : Int) (T : Int) (N : Int) (0 : ℚ) 0)
    w T N rfl rfl rfl hw (N + 1) (le_refl _)
  unfold visited at hv
  simp only at hv
  rw [hl] at hv
  have hll : l = stridedSubset w T N := Option.some.inj hv
  rw [← hll]
  by_cases h : w < N
  · rw [if_pos h]
    rw [if_pos (by exact_mod_cast h)] at hlen
    have hc : (((N - w + T - 1 : Nat)) : Int) = (N : Int) - w + T - 1 := by omega
    have : ((l.length : Nat) : Int) = (((N - w + T - 1) / T : Nat) : Int) := by
      rw [hlen, Int.natCast_div, hc]
    exact_mod_cast this
  · rw [if_neg h]
    rw [if_neg (by exact_mod_cast h)] at hlen
    exact_mod_cast hlen

theorem ceil_div_eq (a T : Nat) (hT : 1 ≤ T) :
    Int.ceil ((a : ℚ) / (T : ℚ)) = (((a + T - 1) / T : Nat) : Int) := by
  have hTq : (0 : ℚ) < (T : ℚ) := by exact_mod_cast hT
  have hdm := Nat.div_add_mod (a + T - 1) T
  have hr : (a + T - 1) % T < T := Nat.mod_lt _ (by omega)
  have hnat : T * ((a + T - 1) / T) + (a + T - 1) % T + 1 = a + T := by omega
  have hq : (T : ℚ) * (((a + T - 1) / T : Nat) : ℚ) + (((a + T - 1) % T : Nat) : ℚ) + 1 =
      (a : ℚ) + (T : ℚ) := by exact_mod_cast hnat
  have hrq : (((a + T - 1) % T : Nat) : ℚ) + 1 ≤ (T : ℚ) := by exact_mod_cast hr
  have hr0 : (0 : ℚ) ≤ (((a + T - 1) % T : Nat) : ℚ) := Nat.cast_nonneg _
  rw [Int.ceil_eq_iff, Int.cast_natCast]
  constructor
  · rw [lt_div_iff₀ hTq]
    nlinarith
  · rw [div_le_iff₀ hTq]
    nlinarith

theorem foldl_count_eq_length (l : List Int) (n : Nat) :
    l.foldl (fun acc _ => acc + 1) n = n + l.length := by
  induction l generalizing n with
  | nil => simp
  | cons a l ih =>
    simp only [List.foldl_cons, List.length_cons, ih]
    omega

theorem sum_length_stridedSubset (T N : Nat) (hT : 1 ≤ T) :
    ((List.range T).map (fun w => (stridedSubset w T N).length)).sum = N := by
  have h := (stridedSubset_flatMap_perm T N hT).length_eq
  rw [List.length_flatMap, List.length_map, List.length_range] at h
  exact h

theorem sum_partialSum_surplus (q : ℚ) (T N : Nat) (hNT : N ≤ T) :
    (List.range T).foldl (fun pi w => ratArith.add pi (partialSum ratArith q w T N))
        ratArith.zero =
      (List.range N).foldl (fun pi w => ratArith.add pi (partialSum ratArith q w T N))
        ratArith.zero := by
  have e : ∀ l : List Nat,
      l.foldl (fun pi w => ratArith.add pi (partialSum ratArith q w T N)) ratArith.zero =
        (l.map (fun w => partialSum ratArith q w T N)).sum := by
    intro l
    have h := foldl_add_eq_sum (fun w => partialSum ratArith q w T N) l 0
    rw [zero_add] at h
    exact h
  rw [e, e, sum_map_range, sum_map_range]
  symm
  refine Finset.sum_subset (Finset.range_mono hNT) (fun w hw hnw => ?_)
  have hw1 : w < T := Finset.mem_range.1 hw
  have hw2 : N ≤ w := Nat.le_of_not_lt (fun h => hnw (Finset.mem_range.2 h))
  rw [partialSum_rat, (stridedSubset_eq_nil_iff w T N hw1).2 hw2]
  rfl

/-! ## The loop counter stays in range -/

theorem wrap32_eq_self (x : Int) (h0 : -2147483648 ≤ x) (h1 : x ≤ 2147483647) :
    wrap32 x = x := by
  unfold wrap32
  omega

theorem strideLoop32_eq_strideLoop {σ : Type} (n t : Int) (ht : 1 ≤ t)
    (hb : n - 1 + t ≤ 2147483647) (body : Int → σ → σ) (fuel : Nat) (i : Int) (s : σ)
    (h0 : 0 ≤ i) (h1 : i ≤ n - 1 + t) :
    strideLoop32 n t body fuel i s = strideLoop n t body fuel i s := by
  induction fuel generalizing i s with
  | zero => rfl
  | succ k ih =>
    by_cases h : i < n
    · simp only [strideLoop32, strideLoop, h, if_true]
      rw [wrap32_eq_self (i + t) (by omega) (by omega)]
      exact ih (i + t) (body i s) (by omega) (by omega)
    · simp [strideLoop32, strideLoop, h]

theorem counterValues32_eq_counterValues (n t : Int) (ht : 1 ≤ t)
    (hb : n - 1 + t ≤ 2147483647) (fuel : Nat) (i : Int) (h0 : 0 ≤ i) (h1 : i ≤ n - 1 + t) :
    counterValues32 n t fuel i = counterValues n t fuel i := by
  induction fuel generalizing i with
  | zero => rfl
  | succ k ih =>
    by_cases h : i < n
    · simp only [counterValues32, counterValues, h, if_true]
      rw [wrap32_eq_self (i + t) (by omega) (by omega), ih (i + t) (by omega) (by omega)]
    · simp [counterValues32, counterValues, h]

theorem counterValues_spec (n t : Int) (ht : 1 ≤ t) (fuel : Nat) (i : Int)
    (hfuel : (n - i).toNat + 1 ≤ fuel) (h0 : 0 ≤ i) (h1 : i ≤ n - 1 + t) :
    ∃ vs, counterValues n t fuel i = some vs ∧
      (∀ v ∈ vs, 0 ≤ v ∧ v ≤ n - 1 + t) ∧
      (∃ last, vs.getLast? = some last ∧ ¬ last < n) ∧
      strideLoop n t (fun j l => l ++ [j]) fuel i [] = some vs.dropLast := by
  induction fuel generalizing i with
  | zero => omega
  | succ k ih =>
    by_cases h : i < n
    · obtain ⟨vs, hvs, hbd, ⟨last, hlast, hnl⟩, hlog⟩ :=
        ih (i + t) (by omega) (by omega) (by omega)
      have hne : vs ≠ [] := by
        intro hnil
        rw [hnil] at hlast
        simp at hlast
      obtain ⟨b, vs1, rfl⟩ := List.exists_cons_of_ne_nil hne
      refine ⟨i :: b :: vs1, ?_, ?_, ⟨last, ?_, hnl⟩, ?_⟩
      · simp only [counterValues, h, if_true, hvs, Option.map_some']
      · intro v hv
        rcases List.mem_cons.1 hv with rfl | hv
        · exact ⟨h0, h1⟩
        · exact hbd v hv
      · rw [List.getLast?_cons_cons]
        exact hlast
      · simp only [strideLoop, h, if_true]
        rw [strideLoop_log_append, hlog]
        simp
    · refine ⟨[i], by simp [counterValues, h], ?_, ⟨i, rfl, h⟩, by simp [strideLoop, h]⟩
      intro v hv
      rw [List.mem_singleton.1 hv]
      exact ⟨h0, h1⟩

theorem runWorkers_init_of {α : Type} (A : Arith α)
    (worker : ThreadData α → Option (ThreadData α)) (T N : Nat) (step : α)
    (hworker : ∀ w : Nat, w < T →
      worker (ThreadData.mk (w : Int) (T : Int) (N : Int) step A.zero) =
        some (ThreadData.mk (w : Int) (T : Int) (N : Int) step (partialSum A step w T N)))
    (order : List Nat) (hperm : order.Perm (List.range T)) :
    runWorkers worker order (initThreadData A (T : Int) (N : Int) step) =
      some (finalThreadData A T N step) := by
  let g : ThreadData α → ThreadData α :=
    fun d => { d with partial_sum := partialSum A d.step d.thread_id.toNat T N }
  have hlen : (initThreadData A (T : Int) (N : Int) step).length = T := by
    simp [initThreadData]
  have hg : ∀ (k : Nat) (d : ThreadData α), (initThreadData A (T : Int) (N : Int) step)[k]? =
      some d → worker d = some (g d) := by
    intro k d hkd
    have hk : k < T := by
      have := (List.getElem?_eq_some.1 hkd).1
      rwa [hlen] at this
    simp only [initThreadData, Int.toNat_ofNat, List.getElem?_map,
      List.getElem?_range hk, Option.map_some', Option.some.injEq] at hkd
    subst hkd
    rw [hworker k hk]
    simp [g]
  have hnd : order.Nodup := hperm.nodup_iff.2 (List.nodup_range T)
  have hmem : ∀ k, k ∈ order ↔ k < T := fun k => by rw [hperm.mem_iff, List.mem_range]
  have h := runWorkers_afterWorkers worker g _ hg order [] hnd
    (fun k hk => ⟨by rw [hlen]; exact (hmem k).1 hk, List.not_mem_nil k⟩)
  rw [afterWorkers_nil] at h
  rw [h, afterWorkers_all g _ _ (fun j hj => by
    rw [hlen] at hj
    simp [(hmem j).2 hj])]
  simp [initThreadData, finalThreadData, g]

theorem calculate_pi32_eq_calculate_pi {α : Type} (A : Arith α) (fuel : Nat)
    (data : ThreadData α) (w T N : Nat) (hid : data.thread_id = w)
    (hnt : data.num_threads = T) (hni : data.num_intervals = N) (hN1 : 1 ≤ N) (hw : w < T)
    (hbound : N - 1 + T ≤ 2147483647) :
    calculate_pi32 A fuel data = calculate_pi A fuel data := by
  unfold calculate_pi32 calculate_pi
  rw [hid, hnt, hni, strideLoop32_eq_strideLoop (N : Int) (T : Int) (by omega) (by omega) _ fuel
    (w : Int) A.zero (by omega) (by omega)]

theorem main32_success {α : Type} (A : Arith α) (parse : String → Int) (elapsed : α)
    (fuel : Nat) (argv : List String) (T N : Nat) (hlen : argv.length = 3)
    (hN : parse (argv.getD 1 "") = (N : Int)) (hT : parse (argv.getD 2 "") = (T : Int))
    (hN1 : 1 ≤ N) (hT1 : 1 ≤ T) (hfuel : N + 1 ≤ fuel)
    (hbound : N - 1 + T ≤ 2147483647) :
    main32 A parse elapsed fuel argv = some (successOutcome A elapsed T N) := by
  have hpos : ¬ ((N : Int) ≤ 0 ∨ (T : Int) ≤ 0) := by omega
  unfold main32 mainWith
  simp only [hlen, ne_eq, not_true_eq_false, if_false, hN, hT, hpos, Int.toNat_ofNat]
  rw [runWorkers_init_of A (calculate_pi32 A fuel) T N _ (fun w hw => by
    rw [calculate_pi32_eq_calculate_pi A fuel _ w T N rfl rfl rfl hN1 hw hbound]
    exact calculate_pi_eq A _ w T N rfl rfl rfl hw fuel hfuel) (List.range T)
    (List.Perm.refl _)]
  simp only [reduce_finalThreadData]
  rfl

/-- C16: for `N ≥ 1`, `T ≥ 1` with `N - 1 + T ≤ 2147483647` and `w < T`, every value taken by
the loop variable `i` of `calculate_pi`, the final one that fails `i < N` included, lies in
`[0, N - 1 + T]`; the update `i += T` therefore never leaves the 32-bit range, the loop with
the 32-bit counter and the loop with the unbounded counter take the same values and give the
same result for every body, and `calculate_pi` and `main` agree in the two embeddings. -/
theorem loop_counter_in_range {α : Type} (A : Arith α) (data : ThreadData α) (w T N : Nat)
    (hN1 : 1 ≤ N) (hT1 : 1 ≤ T) (hw : w < T) (hid : data.thread_id = w)
    (hnt : data.num_threads = T) (hni : data.num_intervals = N)
    (hbound : N - 1 + T ≤ 2147483647) (fuel : Nat) (hfuel : N + 1 ≤ fuel)
    (parse : String → Int) (elapsed : α) (argv : List String) (hlen : argv.length = 3)
    (hpN : parse (argv.getD 1 "") = (N : Int)) (hpT : parse (argv.getD 2 "") = (T : Int)) :
    ∃ vs,
      counterValues32 (N : Int) (T : Int) fuel (w : Int) = some vs ∧
      counterValues (N : Int) (T : Int) fuel (w : Int) = some vs ∧
      (∀ v ∈ vs, 0 ≤ v ∧ v ≤ (N : Int) - 1 + (T : Int)) ∧
      (∀ v ∈ vs, v < (N : Int) →
        v + (T : Int) ≤ 2147483647 ∧ wrap32 (v + (T : Int)) = v + (T : Int)) ∧
      (∃ last, vs.getLast? = some last ∧ ¬ last < (N : Int)) ∧
      visited fuel data = some vs.dropLast ∧
      (∀ (σ : Type) (body : Int → σ → σ) (fuel2 : Nat) (s : σ),
        strideLoop32 (N : Int) (T : Int) body fuel2 (w : Int) s =
          strideLoop (N : Int) (T : Int) body fuel2 (w : Int) s) ∧
      calculate_pi32 A fuel data = calculate_pi A fuel data ∧
      (∃ r, calculate_pi32 A fuel data = some r) ∧
      main32 A parse elapsed fuel argv = main A parse elapsed fuel argv ∧
      (∃ out, main32 A parse elapsed fuel argv = some out) := by
  obtain ⟨vs, hvs, hbd, hlast, hlog⟩ := counterValues_spec (N : Int) (T : Int) (by omega) fuel
    (w : Int) (by omega) (by omega) (by omega)
  have hcalc := calculate_pi32_eq_calculate_pi A fuel data w T N hid hnt hni hN1 hw hbound
  refine ⟨vs, ?_, hvs, hbd, ?_, hlast, ?_, ?_, hcalc, ?_, ?_, ?_⟩
  · rw [counterValues32_eq_counterValues (N : Int) (T : Int) (by omega) (by omega) fuel (w : Int)
      (by omega) (by omega)]
    exact hvs
  · intro v hv hvN
    have hv2 := hbd v hv
    have hle : v + (T : Int) ≤ 2147483647 := by omega
    exact ⟨hle, wrap32_eq_self _ (by omega) hle⟩
  · unfold visited
    rw [hid, hnt, hni]
    exact hlog
  · intro σ body fuel2 s
    exact strideLoop32_eq_strideLoop (N : Int) (T : Int) (by omega) (by omega) body fuel2 (w : Int)
      s (by omega) (by omega)
  · rw [hcalc]
    exact ⟨_, calculate_pi_eq A data w T N hid hnt hni hw fuel hfuel⟩
  · rw [main32_success A parse elapsed fuel argv T N hlen hpN hpT hN1 hT1 hfuel hbound,
      main_success A parse elapsed fuel argv T N hlen hpN hpT hN1 hT1 hfuel]
  · exact ⟨_, main32_success A parse elapsed fuel argv T N hlen hpN hpT hN1 hT1 hfuel hbound⟩

theorem loop_counter_in_range_witness :
    ∃ vs,
      counterValues32 ((4 : Nat) : Int) ((3 : Nat) : Int) 5 ((1 : Nat) : Int) = some vs ∧
      counterValues ((4 : Nat) : Int) ((3 : Nat) : Int) 5 ((1 : Nat) : Int) = some vs ∧
      (∀ v ∈ vs, 0 ≤ v ∧ v ≤ ((4 : Nat) : Int) - 1 + ((3 : Nat) : Int)) ∧
      (∀ v ∈ vs, v < ((4 : Nat) : Int) →
        v + ((3 : Nat) : Int) ≤ 2147483647 ∧
          wrap32 (v + ((3 : Nat) : Int)) = v + ((3 : Nat) : Int)) ∧
      (∃ last, vs.getLast? = some last ∧ ¬ last < ((4 : Nat) : Int)) ∧
      visited 5 (ThreadData.mk 1 3 4 (1 / 4 : ℚ) 0) = some vs.dropLast ∧
      (∀ (σ : Type) (body : Int → σ → σ) (fuel2 : Nat) (s : σ),
        strideLoop32 ((4 : Nat) : Int) ((3 : Nat) : Int) body fuel2 ((1 : Nat) : Int) s =
          strideLoop ((4 : Nat) : Int) ((3 : Nat) : Int) body fuel2 ((1 : Nat) : Int) s) ∧
      calculate_pi32 ratArith 5 (ThreadData.mk 1 3 4 (1 / 4 : ℚ) 0) =
        calculate_pi ratArith 5 (ThreadData.mk 1 3 4 (1 / 4 : ℚ) 0) ∧
      (∃ r, calculate_pi32 ratArith 5 (ThreadData.mk 1 3 4 (1 / 4 : ℚ) 0) = some r) ∧
      main32 ratArith atoi 0 5 ["prog", "4", "3"] = main ratArith atoi 0 5 ["prog", "4", "3"] ∧
      (∃ out, main32 ratArith atoi 0 5 ["prog", "4", "3"] = some out) :=
  loop_counter_in_range ratArith (ThreadData.mk 1 3 4 (1 / 4 : ℚ) 0) 1 3 4 (by decide)
    (by decide) (by decide) rfl rfl rfl (by decide) 5 (by decide) atoi 0 ["prog", "4", "3"]
    (by decide) (by decide) (by decide)

/-! ## The midpoint rule over the reals -/

theorem f_real_antitone_lipschitz (x y : ℝ) (hx : 0 ≤ x) (hxy : x ≤ y) :
    4 / (1 + y ^ 2) ≤ 4 / (1 + x ^ 2) ∧ 4 / (1 + x ^ 2) - 4 / (1 + y ^ 2) ≤ 3 * (y - x) := by
  have hdx : (0 : ℝ) < 1 + x ^ 2 := by positivity
  have hdy : (0 : ℝ) < 1 + y ^ 2 := by positivity
  have hy : 0 ≤ y := le_trans hx hxy
  constructor
  · apply div_le_div_of_nonneg_left (by norm_num) hdx
    nlinarith
  · rw [div_sub_div _ _ (ne_of_gt hdx) (ne_of_gt hdy), div_le_iff₀ (mul_pos hdx hdy)]
    have hkey : 4 * (x + y) ≤ 3 * ((1 + x ^ 2) * (1 + y ^ 2)) := by
      nlinarith [sq_nonneg (x - 2 / 3), sq_nonneg (y - 2 / 3), mul_nonneg (sq_nonneg x) (sq_nonneg y)]
    have hd : 0 ≤ y - x := by linarith
    have := mul_le_mul_of_nonneg_left hkey hd
    nlinarith

theorem arctan_slope (a b : ℝ) (hab : a < b) :
    ∃ c, a < c ∧ c < b ∧ Real.arctan b - Real.arctan a = (b - a) * (1 / (1 + c ^ 2)) := by
  obtain ⟨c, hc, hslope⟩ := exists_hasDerivAt_eq_slope Real.arctan (fun x => 1 / (1 + x ^ 2)) hab
    Real.continuous_arctan.continuousOn (fun x _ => Real.hasDerivAt_arctan x)
  refine ⟨c, hc.1, hc.2, ?_⟩
  have hba : b - a ≠ 0 := by linarith
  rw [hslope]
  field_simp

theorem interval_error (m d : ℝ) (hd : 0 < d) (hm : d ≤ m) :
    |4 * Real.arctan (m + d) - 4 * Real.arctan (m - d) - 2 * d * (4 / (1 + m ^ 2))| ≤
      3 * d ^ 2 := by
  obtain ⟨c1, h1a, h1b, h1⟩ := arctan_slope m (m + d) (by linarith)
  obtain ⟨c2, h2a, h2b, h2⟩ := arctan_slope (m - d) m (by linarith)
  have hL1 := f_real_antitone_lipschitz m c1 (by linarith) (le_of_lt h1a)
  have hL2 := f_real_antitone_lipschitz c2 m (by linarith) (le_of_lt h2b)
  have e : 4 * Real.arctan (m + d) - 4 * Real.arctan (m - d) - 2 * d * (4 / (1 + m ^ 2)) =
      d * ((4 / (1 + c2 ^ 2) - 4 / (1 + m ^ 2)) - (4 / (1 + m ^ 2) - 4 / (1 + c1 ^ 2))) := by
    have h1' : Real.arctan (m + d) = Real.arctan m + d * (1 / (1 + c1 ^ 2)) := by
      have : m + d - m = d := by ring
      rw [this] at h1
      linarith
    have h2' : Real.arctan (m - d) = Real.arctan m - d * (1 / (1 + c2 ^ 2)) := by
      have : m - (m - d) = d := by ring
      rw [this] at h2
      linarith
    rw [h1', h2']
    ring
  rw [e, abs_le]
  constructor
  · nlinarith [hL1.1, hL1.2, hL2.1, hL2.2]
  · nlinarith [hL1.1, hL1.2, hL2.1, hL2.2]

theorem midpoint_error (N : Nat) (hN : 1 ≤ N) :
    |((midpointSum N : ℚ) : ℝ) - Real.pi| ≤ 3 / (4 * (N : ℝ)) := by
  have hNr : (0 : ℝ) < (N : ℝ) := by exact_mod_cast hN
  have hNne : (N : ℝ) ≠ 0 := ne_of_gt hNr
  have hd : (0 : ℝ) < 1 / (2 * (N : ℝ)) := by positivity
  have hcast : ((midpointSum N : ℚ) : ℝ) =
      ∑ i in Finset.range N,
        2 * (1 / (2 * (N : ℝ))) * (4 / (1 + (((i : ℝ) + 1 / 2) / (N : ℝ)) ^ 2)) := by
    unfold midpointSum
    push_cast
    rw [Finset.mul_sum]
    refine Finset.sum_congr rfl (fun i _ => ?_)
    congr 1
    field_simp
  have hpi : Real.pi =
      ∑ i in Finset.range N,
        (4 * Real.arctan ((((i + 1 : ℕ) : ℝ)) / (N : ℝ)) - 4 * Real.arctan ((i : ℝ) / (N : ℝ))) := by
    rw [Finset.sum_range_sub (fun i : ℕ => 4 * Real.arctan ((i : ℝ) / (N : ℝ))) N]
    simp only [Nat.cast_zero, zero_div, Real.arctan_zero, mul_zero, sub_zero]
    rw [div_self hNne, Real.arctan_one]
    ring
  have hterm : ∀ i ∈ Finset.range N,
      |2 * (1 / (2 * (N : ℝ))) * (4 / (1 + (((i : ℝ) + 1 / 2) / (N : ℝ)) ^ 2)) -
        (4 * Real.arctan ((((i + 1 : ℕ) : ℝ)) / (N : ℝ)) -
          4 * Real.arctan ((i : ℝ) / (N : ℝ)))| ≤ 3 * (1 / (2 * (N : ℝ))) ^ 2 := by
    intro i _
    have hi0 : (0 : ℝ) ≤ (i : ℝ) := Nat.cast_nonneg i
    have hm : 1 / (2 * (N : ℝ)) ≤ ((i : ℝ) + 1 / 2) / (N : ℝ) := by
      rw [div_le_div_iff₀ (by positivity) hNr]
      nlinarith
    have h := interval_error (((i : ℝ) + 1 / 2) / (N : ℝ)) (1 / (2 * (N : ℝ))) hd hm
    have e1 : ((i : ℝ) + 1 / 2) / (N : ℝ) + 1 / (2 * (N : ℝ)) = (((i + 1 : ℕ) : ℝ)) / (N : ℝ) := by
      push_cast
      field_simp
      ring
    have e2 : ((i : ℝ) + 1 / 2) / (N : ℝ) - 1 / (2 * (N : ℝ)) = (i : ℝ) / (N : ℝ) := by
      field_simp
      ring
    rw [e1, e2] at h
    rw [abs_sub_comm]
    exact h
  calc |((midpointSum N : ℚ) : ℝ) - Real.pi|
      = |∑ i in Finset.range N,
          (2 * (1 / (2 * (N : ℝ))) * (4 / (1 + (((i : ℝ) + 1 / 2) / (N : ℝ)) ^ 2)) -
            (4 * Real.arctan ((((i + 1 : ℕ) : ℝ)) / (N : ℝ)) -
              4 * Real.arctan ((i : ℝ) / (N : ℝ))))| := by
        rw [Finset.sum_sub_distrib, ← hcast, ← hpi]
    _ ≤ ∑ i in Finset.range N,
          |2 * (1 / (2 * (N : ℝ))) * (4 / (1 + (((i : ℝ) + 1 / 2) / (N : ℝ)) ^ 2)) -
            (4 * Real.arctan ((((i + 1 : ℕ) : ℝ)) / (N : ℝ)) -
              4 * Real.arctan ((i : ℝ) / (N : ℝ)))| := Finset.abs_sum_le_sum_abs _ _
    _ ≤ ∑ _i in Finset.range N, 3 * (1 / (2 * (N : ℝ))) ^ 2 := Finset.sum_le_sum hterm
    _ = 3 / (4 * (N : ℝ)) := by
        rw [Finset.sum_const, Finset.card_range, nsmul_eq_mul]
        field_simp
        ring

theorem midpointSum_ten_gt : (31424 / 10000 : ℚ) < midpointSum 10 := by
  unfold midpointSum
  norm_num [Finset.sum_range_succ]

/-- C12: in exact arithmetic the run `prog 10000000 <T>` (`T ≥ 1`, in particular `T = 4`)
returns the estimate `step * Σ_{i<N} 4 / (1 + ((i + 0.5) * step)^2)`, `N = 10000000`,
`step = 1/N`, and this value is within `1e-7` of `3.14159265`; for `T ≤ 2137483648`, where
the 32-bit loop counter cannot overflow, this is the outcome of the program itself. -/
theorem large_N_accuracy (parse : String → Int) (elapsed : ℚ) (fuel : Nat)
    (argv : List String) (T : Nat) (hlen : argv.length = 3)
    (hN : parse (argv.getD 1 "") = 10000000) (hT : parse (argv.getD 2 "") = (T : Int))
    (hT1 : 1 ≤ T) (hfuel : 10000001 ≤ fuel) :
    ∃ out est,
      main ratArith parse elapsed fuel argv = some out ∧
      estimate out = some est ∧
      est = midpointSum 10000000 ∧
      |(est : ℝ) - 3.14159265| ≤ 0.0000001 ∧
      (T ≤ 2137483648 → main32 ratArith parse elapsed fuel argv = some out) := by
  have herr := midpoint_error 10000000 (by norm_num)
  have h1 := Real.pi_gt_d20
  have h2 := Real.pi_lt_d20
  refine ⟨successOutcome ratArith elapsed T 10000000, midpointSum 10000000,
    main_success ratArith parse elapsed fuel argv T 10000000 hlen hN hT (by norm_num) hT1 hfuel,
    ?_, rfl, ?_, fun hTb => main32_success ratArith parse elapsed fuel argv T 10000000 hlen hN
      hT (by norm_num) hT1 hfuel (by omega)⟩
  · show some (estimateValue ratArith T 10000000) = some (midpointSum 10000000)
    rw [estimateValue_rat T 10000000 hT1]
  · rw [abs_le] at herr ⊢
    norm_num at herr h1 h2 ⊢
    constructor <;> linarith [herr.1, herr.2]

theorem large_N_accuracy_witness :
    ∃ out est,
      main ratArith atoi 0 10000001 ["prog", "10000000", "4"] = some out ∧
      estimate out = some est ∧
      est = midpointSum 10000000 ∧
      |(est : ℝ) - 3.14159265| ≤ 0.0000001 ∧
      (4 ≤ 2137483648 →
        main32 ratArith atoi 0 10000001 ["prog", "10000000", "4"] = some out) :=
  large_N_accuracy atoi 0 10000001 ["prog", "10000000", "4"] 4 (by decide) (by decide)
    (by decide) (by decide) (by decide)

/-- C13: in exact arithmetic, for a fixed `T ≥ 1`, the runs `prog 10 <T>` and
`prog 10000000 <T>` return, and the error `|estimate - π|` of the first is strictly greater
than the error of the second; for `T ≤ 2137483648`, where the 32-bit loop counter cannot
overflow, these are the outcomes of the program itself. -/
theorem error_decreases_from_10_to_10000000 (parse : String → Int) (e1 e2 : ℚ)
    (fuel1 fuel2 : Nat) (argv1 argv2 : List String) (T : Nat) (hT1 : 1 ≤ T)
    (hlen1 : argv1.length = 3) (hlen2 : argv2.length = 3)
    (hN1 : parse (argv1.getD 1 "") = 10) (hN2 : parse (argv2.getD 1 "") = 10000000)
    (hp1 : parse (argv1.getD 2 "") = (T : Int)) (hp2 : parse (argv2.getD 2 "") = (T : Int))
    (hfuel1 : 11 ≤ fuel1) (hfuel2 : 10000001 ≤ fuel2) :
    ∃ out1 out2 est1 est2,
      main ratArith parse e1 fuel1 argv1 = some out1 ∧
      main ratArith parse e2 fuel2 argv2 = some out2 ∧
      estimate out1 = some est1 ∧ estimate out2 = some est2 ∧
      |(est2 : ℝ) - Real.pi| < |(est1 : ℝ) - Real.pi| ∧
      (T ≤ 2137483648 →
        main32 ratArith parse e1 fuel1 argv1 = some out1 ∧
          main32 ratArith parse e2 fuel2 argv2 = some out2) := by
  have herr := midpoint_error 10000000 (by norm_num)
  have h10 : ((31424 / 10000 : ℚ) : ℝ) < ((midpointSum 10 : ℚ) : ℝ) :=
    Rat.cast_lt.2 midpointSum_ten_gt
  have h2 := Real.pi_lt_d6
  refine ⟨successOutcome ratArith e1 T 10, successOutcome ratArith e2 T 10000000,
    midpointSum 10, midpointSum 10000000,
    main_success ratArith parse e1 fuel1 argv1 T 10 hlen1 hN1 hp1 (by norm_num) hT1 hfuel1,
    main_success ratArith parse e2 fuel2 argv2 T 10000000 hlen2 hN2 hp2 (by norm_num) hT1 hfuel2,
    ?_, ?_, ?_⟩
  · show some (estimateValue ratArith T 10) = some (midpointSum 10)
    rw [estimateValue_rat T 10 hT1]
  · show some (estimateValue ratArith T 10000000) = some (midpointSum 10000000)
    rw [estimateValue_rat T 10000000 hT1]
  · have hlow : (0.0008 : ℝ) < |((midpointSum 10 : ℚ) : ℝ) - Real.pi| := by
      refine lt_of_lt_of_le ?_ (le_abs_self _)
      norm_num at h10 h2 ⊢
      linarith
    refine ⟨lt_of_le_of_lt herr (lt_trans ?_ hlow), fun hTb =>
      ⟨main32_success ratArith parse e1 fuel1 argv1 T 10 hlen1 hN1 hp1 (by norm_num) hT1 hfuel1
          (by omega),
        main32_success ratArith parse e2 fuel2 argv2 T 10000000 hlen2 hN2 hp2 (by norm_num) hT1
          hfuel2 (by omega)⟩⟩
    norm_num

theorem error_decreases_from_10_to_10000000_witness :
    ∃ out1 out2 est1 est2,
      main ratArith atoi 0 11 ["prog", "10", "4"] = some out1 ∧
      main ratArith atoi 0 10000001 ["prog", "10000000", "4"] = some out2 ∧
      estimate out1 = some est1 ∧ estimate out2 = some est2 ∧
      |(est2 : ℝ) - Real.pi| < |(est1 : ℝ) - Real.pi| ∧
      (4 ≤ 2137483648 →
        main32 ratArith atoi 0 11 ["prog", "10", "4"] = some out1 ∧
          main32 ratArith atoi 0 10000001 ["prog", "10000000", "4"] = some out2) :=
  error_decreases_from_10_to_10000000 atoi 0 0 11 10000001 ["prog", "10", "4"]
    ["prog", "10000000", "4"] 4 (by decide) (by decide) (by decide) (by decide) (by decide)
    (by decide) (by decide) (by decide) (by decide)

/-! ## The program's loop: 32-bit counter -/

theorem strideLoop32_log_append (n t : Int) (fuel : Nat) (i : Int) (l0 : List Int) :
    strideLoop32 n t (fun j l => l ++ [j]) fuel i l0 =
      (strideLoop32 n t (fun j l => l ++ [j]) fuel i []).map (fun l => l0 ++ l) := by
  induction fuel generalizing i l0 with
  | zero => simp [strideLoop32]
  | succ k ih =>
    by_cases h : i < n
    · simp only [strideLoop32, h, if_true]
      rw [ih (wrap32 (i + t)) (l0 ++ [i]), ih (wrap32 (i + t)) ([] ++ [i])]
      cases strideLoop32 n t (fun j l => l ++ [j]) k (wrap32 (i + t)) [] <;> simp
    · simp [strideLoop32, h]

/-- A finished loop has visited exactly the indices of its first `fuel` iterations. -/
theorem visitedPrefix32_of_finished (n t : Int) (fuel : Nat) (i : Int) (l : List Int)
    (h : strideLoop32 n t (fun j l => l ++ [j]) fuel i [] = some l) :
    visitedPrefix32 n t fuel i = l := by
  induction fuel generalizing i l with
  | zero => simp [strideLoop32] at h
  | succ k ih =>
    by_cases hi : i < n
    · simp only [strideLoop32, hi, if_true] at h
      rw [strideLoop32_log_append] at h
      cases hl : strideLoop32 n t (fun j l => l ++ [j]) k (wrap32 (i + t)) [] with
      | none => rw [hl] at h; simp at h
      | some l1 =>
        rw [hl] at h
        simp only [Option.map_some', List.nil_append, List.singleton_append,
          Option.some.injEq] at h
        simp only [visitedPrefix32, hi, if_true]
        rw [ih _ l1 hl, h]
    · simp only [strideLoop32, hi, if_false, Option.some.injEq] at h
      simp [visitedPrefix32, hi, h]

/-- The result of the loop does not depend on the fuel that was enough for it. -/
theorem strideLoop32_fuel_irrelevant {σ : Type} (n t : Int) (body : Int → σ → σ)
    (fuel1 fuel2 : Nat) (i : Int) (s r1 r2 : σ)
    (h1 : strideLoop32 n t body fuel1 i s = some r1)
    (h2 : strideLoop32 n t body fuel2 i s = some r2) : r1 = r2 := by
  induction fuel1 generalizing fuel2 i s with
  | zero => simp [strideLoop32] at h1
  | succ k ih =>
    cases fuel2 with
    | zero => simp [strideLoop32] at h2
    | succ k2 =>
      by_cases hi : i < n
      · simp only [strideLoop32, hi, if_true] at h1 h2
        exact ih k2 _ _ h1 h2
      · simp only [strideLoop32, hi, if_false, Option.some.injEq] at h1 h2
        rw [← h1, ← h2]

theorem calculate_pi32_fuel_irrelevant {α : Type} (A : Arith α) (fuel1 fuel2 : Nat)
    (d r1 r2 : ThreadData α) (h1 : calculate_pi32 A fuel1 d = some r1)
    (h2 : calculate_pi32 A fuel2 d = some r2) : r1 = r2 := by
  unfold calculate_pi32 at h1 h2
  cases hl1 : strideLoop32 d.num_intervals d.num_threads (loopBody A d.step) fuel1
      d.thread_id A.zero with
  | none => rw [hl1] at h1; simp at h1
  | some s1 =>
    cases hl2 : strideLoop32 d.num_intervals d.num_threads (loopBody A d.step) fuel2
        d.thread_id A.zero with
    | none => rw [hl2] at h2; simp at h2
    | some s2 =>
      rw [hl1] at h1
      rw [hl2] at h2
      have hs := strideLoop32_fuel_irrelevant _ _ _ fuel1 fuel2 _ _ s1 s2 hl1 hl2
      simp only [Option.map_some', Option.some.injEq] at h1 h2
      rw [← h1, ← h2, hs]

theorem visited32_eq_stridedSubset {α : Type} (data : ThreadData α) (w T N : Nat)
    (hid : data.thread_id = w) (hnt : data.num_threads = T) (hni : data.num_intervals = N)
    (hN1 : 1 ≤ N) (hw : w < T) (hbound : N - 1 + T ≤ 2147483647) (fuel : Nat)
    (hfuel : N + 1 ≤ fuel) :
    visited32 fuel data = some (stridedSubset w T N) := by
  have hv := visited_eq_stridedSubset data w T N hid hnt hni hw fuel hfuel
  unfold visited at hv
  unfold visited32
  rw [hid, hnt, hni] at hv ⊢
  rw [strideLoop32_eq_strideLoop (N : Int) (T : Int) (by omega) (by omega) _ fuel (w : Int) []
    (by omega) (by omega)]
  exact hv

theorem calculate_pi32_eq {α : Type} (A : Arith α) (data : ThreadData α) (w T N : Nat)
    (hid : data.thread_id = w) (hnt : data.num_threads = T) (hni : data.num_intervals = N)
    (hN1 : 1 ≤ N) (hw : w < T) (hbound : N - 1 + T ≤ 2147483647) (fuel : Nat)
    (hfuel : N + 1 ≤ fuel) :
    calculate_pi32 A fuel data =
      some { data with partial_sum := partialSum A data.step w T N } := by
  rw [calculate_pi32_eq_calculate_pi A fuel data w T N hid hnt hni hN1 hw hbound]
  exact calculate_pi_eq A data w T N hid hnt hni hw fuel hfuel

/-! ## The failing run `prog 2147483647 2` -/

theorem visitedPrefix32_overflow_length (k : Nat) (i : Int) (hev : i % 2 = 0)
    (hlo : -2147483648 ≤ i) (hhi : i ≤ 2147483647) :
    (visitedPrefix32 2147483647 2 k i).length = k := by
  induction k generalizing i with
  | zero => rfl
  | succ k ih =>
    have hlt : i < 2147483647 := by omega
    simp only [visitedPrefix32, hlt, if_true, List.length_cons]
    rw [ih (wrap32 (i + 2)) (by unfold wrap32; omega) (by unfold wrap32; omega)
      (by unfold wrap32; omega)]

theorem visitedPrefix32_overflow_mem (k : Nat) (i : Int) (hev : i % 2 = 0) (h0 : 0 ≤ i)
    (hhi : i ≤ 2147483646) (hk : 2147483648 - i < 2 * (k : Int)) :
    (-2147483648 : Int) ∈ visitedPrefix32 2147483647 2 k i := by
  induction k generalizing i with
  | zero => omega
  | succ k ih =>
    have hlt : i < 2147483647 := by omega
    simp only [visitedPrefix32, hlt, if_true]
    by_cases hlast : i = 2147483646
    · subst hlast
      have hw : wrap32 (2147483646 + 2) = -2147483648 := by decide
      rw [hw]
      cases k with
      | zero => omega
      | succ k1 =>
        have : (-2147483648 : Int) < 2147483647 := by decide
        simp [visitedPrefix32, this]
    · have hw : wrap32 (i + 2) = i + 2 := wrap32_eq_self _ (by omega) (by omega)
      rw [hw]
      exact List.mem_cons_of_mem _ (ih (i + 2) (by omega) (by omega) (by omega) (by omega))

/-! ## Order of the workers -/

theorem runWorker_afterWorkers_at {α : Type} (worker : ThreadData α → Option (ThreadData α))
    (g : ThreadData α → ThreadData α) (td : List (ThreadData α))
    (S : List Nat) (k : Nat) (hk : k < td.length) (hkS : k ∉ S)
    (hg : worker td[k] = some (g td[k])) :
    runWorker worker (afterWorkers g S td) k = some (afterWorkers g (k :: S) td) := by
  have hget : td[k]? = some td[k] := List.getElem?_eq_getElem hk
  have h1 : (afterWorkers g S td)[k]? = some td[k] := by
    unfold afterWorkers
    rw [List.getElem?_mapIdx, hget]
    simp [hkS]
  unfold runWorker
  rw [h1]
  simp only [hg, Option.map_some']
  congr 1
  apply List.ext_getElem?
  intro j
  unfold afterWorkers
  rw [List.getElem?_set, List.getElem?_mapIdx, List.getElem?_mapIdx]
  by_cases hjk : k = j
  · subst hjk
    simp [hk, hget]
  · have hjk2 : ¬ j = k := fun h => hjk h.symm
    simp [hjk, hjk2]

theorem foldlM_none {α : Type} (worker : ThreadData α → Option (ThreadData α))
    (order : List Nat) :
    (none : Option (List (ThreadData α))) >>= (fun td => order.foldlM (runWorker worker) td) =
      none := rfl

/-- A worker that does not return keeps the whole run from returning. -/
theorem runWorkers_none_of_stuck {α : Type} (worker : ThreadData α → Option (ThreadData α))
    (td : List (ThreadData α)) (order S : List Nat) (hnd : order.Nodup)
    (hord : ∀ k ∈ order, k < td.length ∧ k ∉ S)
    (hstuck : ∃ k ∈ order, ∃ d, td[k]? = some d ∧ worker d = none) :
    runWorkers worker order (afterWorkers (fun d => (worker d).getD d) S td) = none := by
  induction order generalizing S with
  | nil =>
    obtain ⟨k, hk, _⟩ := hstuck
    exact absurd hk (List.not_mem_nil k)
  | cons k rest ih =>
    have hk := hord k (List.mem_cons_self _ _)
    have hnd2 := List.nodup_cons.1 hnd
    have hget : td[k]? = some td[k] := List.getElem?_eq_getElem hk.1
    unfold runWorkers
    rw [List.foldlM_cons]
    cases hw : worker td[k] with
    | none =>
      have h1 : (afterWorkers (fun d => (worker d).getD d) S td)[k]? = some td[k] := by
        unfold afterWorkers
        rw [List.getElem?_mapIdx, hget]
        simp [hk.2]
      simp [runWorker, h1, hw]
    | some r =>
      have hg : worker td[k] = some ((fun d => (worker d).getD d) td[k]) := by
        simp [hw]
      rw [runWorker_afterWorkers_at worker (fun d => (worker d).getD d) td S k hk.1 hk.2 hg]
      simp only [Option.bind_eq_bind, Option.some_bind]
      have hrest : ∃ j ∈ rest, ∃ d, td[j]? = some d ∧ worker d = none := by
        obtain ⟨j, hj, d, hd, hnone⟩ := hstuck
        rcases List.mem_cons.1 hj with rfl | hj
        · rw [hget] at hd
          rw [← Option.some.inj hd, hw] at hnone
          exact absurd hnone (by simp)
        · exact ⟨j, hj, d, hd, hnone⟩
      have := ih (k :: S) hnd2.2 (fun j hj => by
        have hj2 := hord j (List.mem_cons_of_mem _ hj)
        refine ⟨hj2.1, ?_⟩
        intro hmem
        rcases List.mem_cons.1 hmem with h | h
        · exact hnd2.1 (h ▸ hj)
        · exact hj2.2 h) hrest
      unfold runWorkers at this
      exact this

/-- A run of all the workers, in any order, either returns the array in which every record
has been replaced by what its worker returned, or some worker does not return and neither
does the run. -/
theorem runWorkers_perm_cases {α : Type}
    (worker : ThreadData α → Option (ThreadData α)) (td : List (ThreadData α))
    (order : List Nat) (hperm : order.Perm (List.range td.length)) :
    ((∀ (k : Nat) (d : ThreadData α), td[k]? = some d → ∃ r, worker d = some r) ∧
        runWorkers worker order td = some (td.map (fun d => (worker d).getD d))) ∨
      ((∃ (k : Nat) (d : ThreadData α), td[k]? = some d ∧ worker d = none) ∧
        runWorkers worker order td = none) := by
  have hmem : ∀ k, k ∈ order ↔ k < td.length := fun k => by
    rw [hperm.mem_iff, List.mem_range]
  have hnd : order.Nodup := hperm.nodup_iff.2 (List.nodup_range _)
  have hord : ∀ k ∈ order, k < td.length ∧ k ∉ ([] : List Nat) :=
    fun k hk => ⟨(hmem k).1 hk, List.not_mem_nil k⟩
  by_cases hall : ∀ (k : Nat) (d : ThreadData α), td[k]? = some d → ∃ r, worker d = some r
  · left
    refine ⟨hall, ?_⟩
    have hg : ∀ (k : Nat) (d : ThreadData α), td[k]? = some d →
        worker d = some ((fun d => (worker d).getD d) d) := by
      intro k d hd
      obtain ⟨r, hr⟩ := hall k d hd
      simp [hr]
    have h := runWorkers_afterWorkers worker (fun d => (worker d).getD d) td hg order []
      hnd hord
    rw [afterWorkers_nil] at h
    rw [h, afterWorkers_all _ _ _ (fun j hj => by simp [(hmem j).2 hj])]
  · right
    have hex : ∃ (k : Nat) (d : ThreadData α), td[k]? = some d ∧ worker d = none := by
      by_contra hc
      apply hall
      intro k d hd
      cases hw : worker d with
      | some r => exact ⟨r, rfl⟩
      | none => exact absurd ⟨k, d, hd, hw⟩ hc
    refine ⟨hex, ?_⟩
    obtain ⟨k, d, hd, hw⟩ := hex
    have h := runWorkers_none_of_stuck worker td order [] hnd hord
      ⟨k, (hmem k).2 (List.getElem?_eq_some.1 hd).1, d, hd, hw⟩
    rw [afterWorkers_nil] at h
    exact h

/-- Whatever function the threads run, the array after the join is the same for every
order in which whole workers are run: each worker reads and writes its own record only. -/
theorem runWorkers_order_irrelevant {α : Type}
    (worker : ThreadData α → Option (ThreadData α)) (td : List (ThreadData α))
    (order1 order2 : List Nat) (h1 : order1.Perm (List.range td.length))
    (h2 : order2.Perm (List.range td.length)) :
    runWorkers worker order1 td = runWorkers worker order2 td := by
  rcases runWorkers_perm_cases worker td order1 h1 with ⟨ha, hr1⟩ | ⟨hb, hr1⟩
  · rcases runWorkers_perm_cases worker td order2 h2 with ⟨_, hr2⟩ | ⟨⟨k, d, hd, hw⟩, _⟩
    · rw [hr1, hr2]
    · obtain ⟨r, hr⟩ := ha k d hd
      rw [hw] at hr
      exact absurd hr (by simp)
  · rcases runWorkers_perm_cases worker td order2 h2 with ⟨ha, _⟩ | ⟨_, hr2⟩
    · obtain ⟨k, d, hd, hw⟩ := hb
      obtain ⟨r, hr⟩ := ha k d hd
      rw [hw] at hr
      exact absurd hr (by simp)
    · rw [hr1, hr2]

/-- Two finished runs of the workers on the same array give the same array, whatever the
orders and the fuel. -/
theorem runWorkers32_result_unique {α : Type} (A : Arith α) (td td1 td2 : List (ThreadData α))
    (order1 order2 : List Nat) (h1 : order1.Perm (List.range td.length))
    (h2 : order2.Perm (List.range td.length)) (fuel1 fuel2 : Nat)
    (hr1 : runWorkers (calculate_pi32 A fuel1) order1 td = some td1)
    (hr2 : runWorkers (calculate_pi32 A fuel2) order2 td = some td2) : td1 = td2 := by
  rcases runWorkers_perm_cases (calculate_pi32 A fuel1) td order1 h1 with ⟨ha1, hs1⟩ | ⟨_, hn1⟩
  · rcases runWorkers_perm_cases (calculate_pi32 A fuel2) td order2 h2 with
      ⟨ha2, hs2⟩ | ⟨_, hn2⟩
    · rw [hs1] at hr1
      rw [hs2] at hr2
      rw [← Option.some.inj hr1, ← Option.some.inj hr2]
      apply List.map_congr_left
      intro d hd
      obtain ⟨k, hk, hkd⟩ := List.getElem_of_mem hd
      have hget : td[k]? = some d := by rw [List.getElem?_eq_getElem hk, hkd]
      obtain ⟨r1, e1⟩ := ha1 k d hget
      obtain ⟨r2, e2⟩ := ha2 k d hget
      rw [e1, e2, calculate_pi32_fuel_irrelevant A fuel1 fuel2 d r1 r2 e1 e2]
    · rw [hn2] at hr2
      exact absurd hr2 (by simp)
  · rw [hn1] at hr1
    exact absurd hr1 (by simp)

theorem mainWith_inv {α : Type} (A : Arith α) (parse : String → Int) (elapsed : α)
    (worker : ThreadData α → Option (ThreadData α)) (argv : List String) (out : Outcome α)
    (h : mainWith A parse elapsed worker argv = some out) :
    (argv.length ≠ 3 ∧ out = usageFailure argv) ∨
      (argv.length = 3 ∧ (parse (argv.getD 1 "") ≤ 0 ∨ parse (argv.getD 2 "") ≤ 0) ∧
        out = valueFailure) ∨
      (argv.length = 3 ∧ 0 < parse (argv.getD 1 "") ∧ 0 < parse (argv.getD 2 "") ∧
        ∃ td,
          runWorkers worker (List.range (parse (argv.getD 2 "")).toNat)
            (initThreadData A (parse (argv.getD 2 "")) (parse (argv.getD 1 ""))
              (A.div A.one (A.ofInt (parse (argv.getD 1 ""))))) = some td ∧
          out =
            { exit_code := 0
              stdout := [Out.text "Przybliżona wartość liczby PI: ",
                         Out.num (reduce A td (A.div A.one (A.ofInt (parse (argv.getD 1 ""))))),
                         Out.endl, Out.text "Czas obliczeń: ", Out.num elapsed,
                         Out.text " sekund", Out.endl]
              stderr := []
              threads := (parse (argv.getD 2 "")).toNat
              thread_data := td }) := by
  unfold mainWith at h
  by_cases hlen : argv.length ≠ 3
  · rw [if_pos hlen] at h
    exact Or.inl ⟨hlen, (Option.some.inj h).symm⟩
  · rw [if_neg hlen] at h
    by_cases hval : parse (argv.getD 1 "") ≤ 0 ∨ parse (argv.getD 2 "") ≤ 0
    · simp only [hval, if_true] at h
      exact Or.inr (Or.inl ⟨not_not.1 hlen, hval, (Option.some.inj h).symm⟩)
    · simp only [hval, if_false] at h
      right; right
      refine ⟨not_not.1 hlen, by omega, by omega, ?_⟩
      split at h
      · exact absurd h (by simp)
      · next td htd => exact ⟨td, htd, (Option.some.inj h).symm⟩

/-! ## Claims that fail at the run `prog 2147483647 2`

The loop counter `int i` of `calculate_pi` overflows when `i + num_threads` exceeds
`2147483647` while `i < num_intervals`.  `main` accepts every `N > 0` and `T > 0`, so the run
`prog 2147483647 2` is a run of the program; in it the counter of worker 0 takes the even
values `0, 2, ..., 2147483646`, wraps to `-2147483648` and never reaches `N`. -/

theorem stridedSubset_nonneg (w T N : Nat) (x : Int) (hx : x ∈ stridedSubset w T N) :
    0 ≤ x :=
  ((mem_stridedSubset w T N x).1 hx).1

theorem visited32_overflow_none {α : Type} (A : Arith α) (step : α) (fuel : Nat) :
    visited32 fuel (ThreadData.mk 0 2 2147483647 step A.zero) = none := by
  unfold visited32
  exact strideLoop32_even_stuck _ fuel 0 [] (by decide) (by decide) (by decide)

theorem calculate_pi32_overflow_none {α : Type} (A : Arith α) (step : α) (fuel : Nat) :
    calculate_pi32 A fuel (ThreadData.mk 0 2 2147483647 step A.zero) = none := by
  unfold calculate_pi32
  rw [strideLoop32_even_stuck _ fuel 0 A.zero (by decide) (by decide) (by decide)]
  rfl

theorem main32_overflow_none {α : Type} (A : Arith α) (elapsed : α) (fuel : Nat) :
    main32 A atoi elapsed fuel ["prog", "2147483647", "2"] = none := by
  have hatoi : atoi "2147483647" = 2147483647 := by decide
  have hatoi2 : atoi "2" = 2 := by decide
  have hlen : ¬ (["prog", "2147483647", "2"].length ≠ 3) := by decide
  have hval : ¬ ((2147483647 : Int) ≤ 0 ∨ (2 : Int) ≤ 0) := by decide
  have h1 : ["prog", "2147483647", "2"].getD 1 "" = "2147483647" := rfl
  have h2 : ["prog", "2147483647", "2"].getD 2 "" = "2" := rfl
  have h3 : (2 : Int).toNat = 2 := rfl
  unfold main32 mainWith
  rw [if_neg hlen]
  simp only [h1, h2, hatoi, hatoi2, hval, if_false, h3]
  have hrun : runWorkers (calculate_pi32 A fuel) (List.range 2)
      (initThreadData A 2 2147483647 (A.div A.one (A.ofInt 2147483647))) = none := by
    have hr : List.range 2 = [0, 1] := by decide
    have hi : initThreadData A 2 2147483647 (A.div A.one (A.ofInt 2147483647)) =
        [ThreadData.mk 0 2 2147483647 (A.div A.one (A.ofInt 2147483647)) A.zero,
         ThreadData.mk 1 2 2147483647 (A.div A.one (A.ofInt 2147483647)) A.zero] := by
      simp [initThreadData, hr]
    rw [hr, hi]
    simp [runWorkers, runWorker, calculate_pi32_overflow_none]
  rw [hrun]

theorem strideLoop32_wrapped_log :
    strideLoop32 2147483646 2147483647 (fun j l => l ++ [j]) 4 1 [] =
      some [1, -2147483648, -1] := by
  decide

theorem visited32_wrapped {α : Type} (A : Arith α) (step : α) :
    visited32 4 (ThreadData.mk 1 2147483647 2147483646 step A.zero) =
      some [1, -2147483648, -1] :=
  strideLoop32_wrapped_log

/-- C1, at the failing input `prog 2147483647 2`: the loop of worker 0 never ends, after
any number `k` of iterations it has visited `k` indices, and among the first 1073741825 of
them is `-2147483648`, an index outside `[0, N)`; so the index sets of the workers do not
cover `{0, ..., N-1}` exactly once.  The record `(1, 2147483647, 2147483646)` shows the
same overflow in a loop that ends: it visits `1, -2147483648, -1`. -/
theorem cover_fails_on_overflow {α : Type} (A : Arith α) (step : α) :
    (∀ fuel : Nat, visited32 fuel (ThreadData.mk 0 2 2147483647 step A.zero) = none) ∧
      (∀ k : Nat,
        (visitedWithin32 k (ThreadData.mk 0 2 2147483647 step A.zero)).length = k) ∧
      (-2147483648 : Int) ∈
        visitedWithin32 1073741825 (ThreadData.mk 0 2 2147483647 step A.zero) ∧
      ¬ ((0 : Int) ≤ -2147483648) ∧
      visited32 4 (ThreadData.mk 1 2147483647 2147483646 step A.zero) =
        some [1, -2147483648, -1] :=
  ⟨visited32_overflow_none A step,
    fun k => visitedPrefix32_overflow_length k 0 (by decide) (by decide) (by decide),
    visitedPrefix32_overflow_mem 1073741825 0 (by decide) (by decide) (by decide) (by decide),
    by decide, visited32_wrapped A step⟩

/-- C2, at the failing input `prog 2147483647 2`: the sequence of indices visited by worker 0
is not the enumeration of `{i in [0, N) : i mod 2 = 0}`: the loop returns no sequence, and it
visits `-2147483648`, which is not in that set.  On the record `(1, 2147483647, 2147483646)`
the loop ends with the sequence `1, -2147483648, -1`, which is not the strided subset. -/
theorem visited_differs_on_overflow {α : Type} (A : Arith α) (step : α) :
    (∀ fuel : Nat, visited32 fuel (ThreadData.mk 0 2 2147483647 step A.zero) ≠
        some (stridedSubset 0 2 2147483647)) ∧
      (-2147483648 : Int) ∈
        visitedWithin32 1073741825 (ThreadData.mk 0 2 2147483647 step A.zero) ∧
      (-2147483648 : Int) ∉ stridedSubset 0 2 2147483647 ∧
      visited32 4 (ThreadData.mk 1 2147483647 2147483646 step A.zero) =
        some [1, -2147483648, -1] ∧
      visited32 4 (ThreadData.mk 1 2147483647 2147483646 step A.zero) ≠
        some (stridedSubset 1 2147483647 2147483646) := by
  have hv := visited32_wrapped A step
  refine ⟨fun fuel => ?_,
    visitedPrefix32_overflow_mem 1073741825 0 (by decide) (by decide) (by decide) (by decide),
    fun h => absurd (stridedSubset_nonneg _ _ _ _ h) (by decide), hv, ?_⟩
  · rw [visited32_overflow_none A step fuel]
    exact fun h => Option.noConfusion h
  · rw [hv]
    intro h
    have hmem : (-2147483648 : Int) ∈ stridedSubset 1 2147483647 2147483646 := by
      rw [← Option.some.inj h]
      decide
    exact absurd (stridedSubset_nonneg _ _ _ _ hmem) (by decide)

/-- C15, at the failing input `prog 2147483647 2`: `⌈(N - w) / T⌉` is 1073741824 for worker
0, but its loop runs more often: it is still running after 1073741825 iterations, and after
any number of them, so it has no iteration count.  On the record
`(1, 2147483647, 2147483646)` the loop runs 3 times where `⌈(N - w) / T⌉ = 1`. -/
theorem iteration_count_exceeded_on_overflow {α : Type} (A : Arith α) (step : α) :
    Int.ceil (((2147483647 : ℚ) - 0) / 2) = 1073741824 ∧
      (visitedWithin32 1073741825 (ThreadData.mk 0 2 2147483647 step A.zero)).length =
        1073741825 ∧
      (∀ k : Nat,
        (visitedWithin32 k (ThreadData.mk 0 2 2147483647 step A.zero)).length = k) ∧
      (∀ fuel : Nat,
        strideLoop32 2147483647 2 (fun _ c => c + 1) fuel 0 (0 : Nat) = none) ∧
      Int.ceil (((2147483646 : ℚ) - 1) / 2147483647) = 1 ∧
      strideLoop32 2147483646 2147483647 (fun _ c => c + 1) 4 1 (0 : Nat) = some 3 := by
  refine ⟨?_, visitedPrefix32_overflow_length _ 0 (by decide) (by decide) (by decide),
    fun k => visitedPrefix32_overflow_length k 0 (by decide) (by decide) (by decide),
    fun fuel => strideLoop32_even_stuck _ fuel 0 0 (by decide) (by decide) (by decide),
    ?_, by decide⟩
  · rw [Int.ceil_eq_iff]
    norm_num
  · rw [Int.ceil_eq_iff]
    norm_num

theorem stridedSubset_wrapped_record : stridedSubset 1 2147483647 2147483646 = [1] := by
  refine List.eq_of_perm_of_sorted ?_ (stridedSubset_sorted _ _ _) (List.sorted_singleton 1)
  refine (List.perm_ext_iff_of_nodup (stridedSubset_sorted _ _ _).nodup
    (List.nodup_singleton 1)).2 ?_
  intro x
  rw [mem_stridedSubset, List.mem_singleton]
  constructor
  · rintro ⟨h0, h1, h2⟩
    have hx : x % ((2147483647 : Nat) : Int) = x := Int.emod_eq_of_lt h0 (by omega)
    rw [hx] at h2
    exact_mod_cast h2
  · rintro rfl
    exact ⟨by decide, by decide, by decide⟩

theorem calculate_pi32_wrapped {α : Type} (A : Arith α) (step : α) :
    calculate_pi32 A 4 (ThreadData.mk 1 2147483647 2147483646 step A.zero) =
      some (ThreadData.mk 1 2147483647 2147483646 step
        (loopBody A step (-1) (loopBody A step (-2147483648) (loopBody A step 1 A.zero)))) := by
  have w1 : wrap32 (1 + 2147483647) = -2147483648 := by decide
  have w2 : wrap32 (-2147483648 + 2147483647) = -1 := by decide
  have w3 : wrap32 (-1 + 2147483647) = 2147483646 := by decide
  have c1 : (1 : Int) < 2147483646 := by decide
  have c2 : (-2147483648 : Int) < 2147483646 := by decide
  have c3 : (-1 : Int) < 2147483646 := by decide
  have c4 : ¬ ((2147483646 : Int) < 2147483646) := by decide
  simp only [calculate_pi32, strideLoop32, w1, w2, w3, c1, c2, c3, c4, if_true, if_false,
    Option.map_some']

/-- C3, at the failing input `prog 2147483647 2`: `main` computes no value, for no amount of
fuel, so it does not compute `step * (p_0 + p_1)`.  On the record
`(1, 2147483647, 2147483646)` the overflow shows in the value: `calculate_pi` stores the
accumulation over the indices `1, -2147483648, -1`, while `p_1` is the accumulation over
the index `1` alone, and in exact arithmetic the two differ. -/
theorem estimate_formula_fails_on_overflow {α : Type} (A : Arith α) (elapsed : α) :
    (∀ fuel : Nat, main32 A atoi elapsed fuel ["prog", "2147483647", "2"] = none) ∧
      (∀ fuel : Nat,
        (main32 A atoi elapsed fuel ["prog", "2147483647", "2"]).bind estimate = none) ∧
      (∀ step : α,
        calculate_pi32 A 4 (ThreadData.mk 1 2147483647 2147483646 step A.zero) =
          some (ThreadData.mk 1 2147483647 2147483646 step
            (loopBody A step (-1)
              (loopBody A step (-2147483648) (loopBody A step 1 A.zero))))) ∧
      (∀ step : α, partialSum A step 1 2147483647 2147483646 = loopBody A step 1 A.zero) ∧
      (∀ q : ℚ,
        loopBody ratArith q (-1)
            (loopBody ratArith q (-2147483648) (loopBody ratArith q 1 ratArith.zero)) ≠
          loopBody ratArith q 1 ratArith.zero) := by
  refine ⟨main32_overflow_none A elapsed, fun fuel => ?_, calculate_pi32_wrapped A,
    fun step => ?_, fun q => ?_⟩
  · rw [main32_overflow_none A elapsed fuel]
    rfl
  · simp only [partialSum, stridedSubset_wrapped_record, List.foldl_cons, List.foldl_nil]
  · have h2 := term_pos q (-2147483648)
    have h3 := term_pos q (-1)
    intro h
    have e : loopBody ratArith q (-1)
        (loopBody ratArith q (-2147483648) (loopBody ratArith q 1 ratArith.zero)) =
        loopBody ratArith q 1 ratArith.zero + term q (-2147483648) + term q (-1) := by
      simp only [loopBody, f, ratArith, term]
    rw [e] at h
    linarith

/-- C4, at the failing input `N = 2147483647`: with `T = 1` the run returns the midpoint
sum (fuel 2147483648), with `T = 2` it returns nothing for any fuel; the two worker counts
do not give the same estimate. -/
theorem worker_count_changes_outcome_on_overflow (elapsed : ℚ) :
    (main32 ratArith atoi elapsed 2147483648 ["prog", "2147483647", "1"]).bind estimate =
        some (midpointSum 2147483647) ∧
      (∀ fuel : Nat,
        (main32 ratArith atoi elapsed fuel ["prog", "2147483647", "2"]).bind estimate =
          none) ∧
      (∀ fuel : Nat,
        (main32 ratArith atoi elapsed fuel ["prog", "2147483647", "2"]).bind estimate ≠
          (main32 ratArith atoi elapsed 2147483648 ["prog", "2147483647", "1"]).bind
            estimate) := by
  have h1 : (main32 ratArith atoi elapsed 2147483648 ["prog", "2147483647", "1"]).bind
      estimate = some (midpointSum 2147483647) := by
    rw [main32_success ratArith atoi elapsed 2147483648 ["prog", "2147483647", "1"] 1
      2147483647 (by decide) (by decide) (by decide) (by decide) (by decide) (by decide)
      (by decide)]
    show some (estimateValue ratArith 1 2147483647) = some (midpointSum 2147483647)
    rw [estimateValue_rat 1 2147483647 (by decide)]
  have h2 : ∀ fuel : Nat,
      (main32 ratArith atoi elapsed fuel ["prog", "2147483647", "2"]).bind estimate =
        none := by
    intro fuel
    rw [main32_overflow_none ratArith elapsed fuel]
    rfl
  refine ⟨h1, h2, fun fuel => ?_⟩
  rw [h1, h2 fuel]
  exact fun h => Option.noConfusion h

/-- C5, at the failing input `prog 2147483647 2`: there are exactly two arguments and both
are parsed as positive, yet `main` does not exit with status 0: it does not return at all,
whatever the fuel. -/
theorem exit_status_missing_on_overflow {α : Type} (A : Arith α) (elapsed : α) :
    ["prog", "2147483647", "2"].length = 3 ∧
      ¬ (atoi (["prog", "2147483647", "2"].getD 1 "") ≤ 0 ∨
          atoi (["prog", "2147483647", "2"].getD 2 "") ≤ 0) ∧
      (∀ fuel : Nat, main32 A atoi elapsed fuel ["prog", "2147483647", "2"] = none) ∧
      (∀ fuel : Nat,
        (main32 A atoi elapsed fuel ["prog", "2147483647", "2"]).map Outcome.exit_code ≠
          some 0) := by
  refine ⟨rfl, by decide, main32_overflow_none A elapsed, fun fuel h => ?_⟩
  rw [main32_overflow_none A elapsed fuel] at h
  exact Option.noConfusion h

/-- C17, at the failing input `prog 2147483647 2`: `main` returns no estimate, whatever the
fuel, so there is no final estimate between 2 and 4, and worker 0 never stores a partial
sum. -/
theorem estimate_bounds_missing_on_overflow (elapsed : ℚ) (fuel : Nat) :
    (¬ ∃ out est,
        main32 ratArith atoi elapsed fuel ["prog", "2147483647", "2"] = some out ∧
          estimate out = some est ∧ 2 < est ∧ est < 4) ∧
      calculate_pi32 ratArith fuel
        (ThreadData.mk 0 2 2147483647
          (ratArith.div ratArith.one (ratArith.ofInt 2147483647)) ratArith.zero) = none ∧
      calculate_pi_stores32 ratArith fuel
        (ThreadData.mk 0 2 2147483647
          (ratArith.div ratArith.one (ratArith.ofInt 2147483647)) ratArith.zero) = [] := by
  refine ⟨?_, calculate_pi32_overflow_none ratArith _ fuel, ?_⟩
  · rintro ⟨out, est, h, _⟩
    rw [main32_overflow_none ratArith elapsed fuel] at h
    exact Option.noConfusion h
  · unfold calculate_pi_stores32
    simp only
    rw [strideLoop32_even_stuck _ fuel 0 _ (by decide) (by decide) (by decide)]

/-! ## Arguments and output -/

theorem main32_value {α : Type} (A : Arith α) (parse : String → Int) (elapsed : α)
    (fuel : Nat) (argv : List String) (hlen : argv.length = 3)
    (hval : parse (argv.getD 1 "") ≤ 0 ∨ parse (argv.getD 2 "") ≤ 0) :
    main32 A parse elapsed fuel argv = some valueFailure :=
  mainWith_value A parse elapsed _ argv hlen hval

/-- C6, as stated, fails: `12abc` is not the decimal text of a positive integer, yet the run
`prog 12abc 4` is accepted: it exits with status 0 and prints an estimate. -/
theorem trailing_characters_accepted :
    isPositiveDecimal "12abc" = false ∧ atoi "12abc" = 12 ∧
      ∃ out, main ratArith atoi 0 13 ["prog", "12abc", "4"] = some out ∧
        main32 ratArith atoi 0 13 ["prog", "12abc", "4"] = some out ∧
        out.exit_code = 0 ∧ out.stderr = [] ∧ out.threads = 4 ∧ out ≠ valueFailure := by
  refine ⟨by decide, by decide, successOutcome ratArith 0 4 12,
    main_success ratArith atoi 0 13 ["prog", "12abc", "4"] 4 12 (by decide) (by decide)
      (by decide) (by decide) (by decide) (by decide),
    main32_success ratArith atoi 0 13 ["prog", "12abc", "4"] 4 12 (by decide) (by decide)
      (by decide) (by decide) (by decide) (by decide) (by decide), rfl, rfl, rfl, ?_⟩
  intro h
  have := congrArg (fun o => o.exit_code) h
  simp [successOutcome, valueFailure] at this

/-- C6, amended: whenever `atoi` converts one of the two arguments to a value `≤ 0`, `main`
exits with status 1 and the positivity message, writes nothing to standard output and
creates no thread.  A string without any digit converts to 0; `abc` and `0` convert to 0
and `-3` to -3, so the runs `prog 0 4` and `prog abc 4` are rejected.  The conversion reads
the numeric prefix and keeps 32 bits: `12abc` converts to 12 and the run `prog 12abc 4`
exits with status 0, `-4294967295` converts to 1 and `2147483648` to -2147483648. -/
theorem nonpositive_argument_rejected {α : Type} (A : Arith α) (elapsed : α) (fuel : Nat)
    (prog a b : String) (h : atoi a ≤ 0 ∨ atoi b ≤ 0) :
    main32 A atoi elapsed fuel [prog, a, b] = some valueFailure ∧
      (valueFailure : Outcome α).exit_code = 1 ∧
      (valueFailure : Outcome α).stdout = [] ∧
      (valueFailure : Outcome α).threads = 0 ∧
      (valueFailure : Outcome α).thread_data = [] ∧
      (valueFailure : Outcome α).stderr =
        [Out.text "Liczba przedziałów i liczba wątków musi być większa od zera.", Out.endl] ∧
      (∀ s : String, (∀ c ∈ s.toList, c.isDigit = false) → atoi s = 0) ∧
      atoi "abc" = 0 ∧ atoi "0" = 0 ∧ atoi "-3" = -3 ∧
      main32 A atoi elapsed fuel ["./prog", "0", "4"] = some valueFailure ∧
      main32 A atoi elapsed fuel ["./prog", "abc", "4"] = some valueFailure ∧
      atoi "12abc" = 12 ∧
      (13 ≤ fuel →
        main32 A atoi elapsed fuel ["./prog", "12abc", "4"] =
          some (successOutcome A elapsed 4 12)) ∧
      (successOutcome A elapsed 4 12).exit_code = 0 ∧
      atoi "-4294967295" = 1 ∧ atoi "2147483648" = -2147483648 :=
  ⟨main32_value A atoi elapsed fuel [prog, a, b] rfl h, rfl, rfl, rfl, rfl, rfl, atoi_no_digit,
    by decide, by decide, by decide,
    main32_value A atoi elapsed fuel ["./prog", "0", "4"] rfl (Or.inl (by decide)),
    main32_value A atoi elapsed fuel ["./prog", "abc", "4"] rfl (Or.inl (by decide)),
    by decide,
    fun hf => main32_success A atoi elapsed fuel ["./prog", "12abc", "4"] 4 12 (by decide)
      (by decide) (by decide) (by decide) (by decide) hf (by decide),
    rfl, by decide, by decide⟩

theorem nonpositive_argument_rejected_witness :
    main32 ratArith atoi 0 13 ["./prog", "4", "-3"] = some valueFailure ∧
      (valueFailure : Outcome ℚ).exit_code = 1 ∧
      (valueFailure : Outcome ℚ).stdout = [] ∧
      (valueFailure : Outcome ℚ).threads = 0 ∧
      (valueFailure : Outcome ℚ).thread_data = [] ∧
      (valueFailure : Outcome ℚ).stderr =
        [Out.text "Liczba przedziałów i liczba wątków musi być większa od zera.", Out.endl] ∧
      (∀ s : String, (∀ c ∈ s.toList, c.isDigit = false) → atoi s = 0) ∧
      atoi "abc" = 0 ∧ atoi "0" = 0 ∧ atoi "-3" = -3 ∧
      main32 ratArith atoi 0 13 ["./prog", "0", "4"] = some valueFailure ∧
      main32 ratArith atoi 0 13 ["./prog", "abc", "4"] = some valueFailure ∧
      atoi "12abc" = 12 ∧
      (13 ≤ 13 →
        main32 ratArith atoi 0 13 ["./prog", "12abc", "4"] =
          some (successOutcome ratArith 0 4 12)) ∧
      (successOutcome ratArith 0 4 12).exit_code = 0 ∧
      atoi "-4294967295" = 1 ∧ atoi "2147483648" = -2147483648 :=
  nonpositive_argument_rejected ratArith 0 13 "./prog" "4" "-3" (Or.inr (by decide))

/-- C7, as stated, fails: the successful run `prog 1 1` does not print the English texts; its
first item on standard output is the Polish text `Przybliżona wartość liczby PI: `. -/
theorem stdout_text_is_not_english :
    ∃ out, main ratArith atoi 0 2 ["prog", "1", "1"] = some out ∧
      main32 ratArith atoi 0 2 ["prog", "1", "1"] = some out ∧ out.exit_code = 0 ∧
      out.stdout.head? ≠ some (Out.text "Approximate value of PI: ") ∧
      out.stdout.head? = some (Out.text "Przybliżona wartość liczby PI: ") ∧
      Out.text "Computation time: " ∉ out.stdout ∧ Out.text " seconds" ∉ out.stdout := by
  refine ⟨successOutcome ratArith 0 1 1,
    main_success ratArith atoi 0 2 ["prog", "1", "1"] 1 1 (by decide) (by decide)
      (by decide) (by decide) (by decide) (by decide),
    main32_success ratArith atoi 0 2 ["prog", "1", "1"] 1 1 (by decide) (by decide)
      (by decide) (by decide) (by decide) (by decide) (by decide), rfl, ?_, rfl, ?_, ?_⟩
  · simp [successOutcome]
  · simp [successOutcome]
  · simp [successOutcome]

/-- C7, amended: every run of `main` that exits with status 0 writes exactly two lines to
standard output: the text `Przybliżona wartość liczby PI: ` followed by the estimate, and
the text `Czas obliczeń: ` followed by the elapsed time and ` sekund`.  The estimate is the
sum of the partial sums of the final `thread_data`, taken in the order of the array from
`0.0`, times `step = 1.0 / N`, and `thread_data` is what the workers leave behind; nothing
is written to the error stream. -/
theorem stdout_two_lines {α : Type} (A : Arith α) (parse : String → Int) (elapsed : α)
    (fuel : Nat) (argv : List String) (out : Outcome α)
    (h : main32 A parse elapsed fuel argv = some out) (hexit : out.exit_code = 0) :
    out.stdout =
        [Out.text "Przybliżona wartość liczby PI: ",
         Out.num (A.mul (out.thread_data.foldl (fun pi d => A.add pi d.partial_sum) A.zero)
           (A.div A.one (A.ofInt (parse (argv.getD 1 ""))))),
         Out.endl,
         Out.text "Czas obliczeń: ", Out.num elapsed, Out.text " sekund", Out.endl] ∧
      runWorkers (calculate_pi32 A fuel) (List.range (parse (argv.getD 2 "")).toNat)
          (initThreadData A (parse (argv.getD 2 "")) (parse (argv.getD 1 ""))
            (A.div A.one (A.ofInt (parse (argv.getD 1 ""))))) = some out.thread_data ∧
      argv.length = 3 ∧ 0 < parse (argv.getD 1 "") ∧ 0 < parse (argv.getD 2 "") ∧
      (out.stdout.filter isEndl).length = 2 ∧
      out.stderr = [] := by
  rcases mainWith_inv A parse elapsed _ argv out h with ⟨_, h1⟩ | ⟨_, _, h1⟩ |
    ⟨hlen, hN, hT, td, htd, h1⟩
  · rw [h1] at hexit
    simp [usageFailure] at hexit
  · rw [h1] at hexit
    simp [valueFailure] at hexit
  · subst h1
    exact ⟨rfl, htd, hlen, hN, hT, rfl, rfl⟩

theorem stdout_two_lines_witness :
    (successOutcome ratArith 0 3 4).stdout =
        [Out.text "Przybliżona wartość liczby PI: ",
         Out.num (ratArith.mul
           ((successOutcome ratArith 0 3 4).thread_data.foldl
             (fun pi d => ratArith.add pi d.partial_sum) ratArith.zero)
           (ratArith.div ratArith.one (ratArith.ofInt (atoi (["prog", "4", "3"].getD 1 ""))))),
         Out.endl,
         Out.text "Czas obliczeń: ", Out.num 0, Out.text " sekund", Out.endl] ∧
      runWorkers (calculate_pi32 ratArith 5)
          (List.range (atoi (["prog", "4", "3"].getD 2 "")).toNat)
          (initThreadData ratArith (atoi (["prog", "4", "3"].getD 2 ""))
            (atoi (["prog", "4", "3"].getD 1 ""))
            (ratArith.div ratArith.one
              (ratArith.ofInt (atoi (["prog", "4", "3"].getD 1 ""))))) =
        some (successOutcome ratArith 0 3 4).thread_data ∧
      ["prog", "4", "3"].length = 3 ∧ 0 < atoi (["prog", "4", "3"].getD 1 "") ∧
      0 < atoi (["prog", "4", "3"].getD 2 "") ∧
      ((successOutcome ratArith 0 3 4).stdout.filter isEndl).length = 2 ∧
      (successOutcome ratArith 0 3 4).stderr = [] :=
  stdout_two_lines ratArith atoi 0 5 ["prog", "4", "3"] (successOutcome ratArith 0 3 4)
    (main32_success ratArith atoi 0 5 ["prog", "4", "3"] 3 4 (by decide) (by decide)
      (by decide) (by decide) (by decide) (by decide) (by decide)) rfl

/-- C8: for `N = 1` and `T = 1` the single worker visits only the index 0, the step is 1,
the single midpoint is `0.5`, `f 0.5 = 4 / 1.25 = 16/5`, and the run returns the estimate
`16/5 = 3.2` in exact arithmetic; no overflow can occur, and the program with its 32-bit
loop counter visits the same index and returns the same outcome. -/
theorem boundary_one_interval_one_worker (parse : String → Int) (elapsed : ℚ) (fuel : Nat)
    (argv : List String) (hlen : argv.length = 3)
    (hN : parse (argv.getD 1 "") = 1) (hT : parse (argv.getD 2 "") = 1)
    (hfuel : 2 ≤ fuel) :
    visited fuel (ThreadData.mk 0 1 1 (1 : ℚ) 0) = some [0] ∧
      ratArith.div ratArith.one (ratArith.ofInt 1) = 1 ∧
      ratArith.mul (ratArith.add (ratArith.ofInt 0) ratArith.half) 1 = 1 / 2 ∧
      f ratArith (1 / 2) = 4 / (5 / 4) ∧
      ratArith.mul (f ratArith (1 / 2)) 1 = 16 / 5 ∧
      (∃ out, main ratArith parse elapsed fuel argv = some out ∧
        out.thread_data = [ThreadData.mk 0 1 1 1 (16 / 5)] ∧
        estimate out = some (16 / 5) ∧
        main32 ratArith parse elapsed fuel argv = some out) ∧
      visited32 fuel (ThreadData.mk 0 1 1 (1 : ℚ) 0) = some [0] := by
  have hs : stridedSubset 0 1 1 = [0] := by decide
  refine ⟨?_, by simp [ratArith], by simp [ratArith], by norm_num [f, ratArith],
    by norm_num [f, ratArith], ⟨successOutcome ratArith elapsed 1 1,
    main_success ratArith parse elapsed fuel argv 1 1 hlen hN hT (by decide) (by decide)
      hfuel, ?_, ?_,
    main32_success ratArith parse elapsed fuel argv 1 1 hlen hN hT (by decide) (by decide)
      hfuel (by decide)⟩, ?_⟩
  · have h := visited_eq_stridedSubset (ThreadData.mk 0 1 1 (1 : ℚ) 0) 0 1 1 rfl rfl rfl
      (by decide) fuel hfuel
    rw [h, hs]
  · have hr : List.range 1 = [0] := by decide
    simp only [successOutcome, finalThreadData, hr, List.map_cons, List.map_nil,
      partialSum, hs, List.foldl_cons, List.foldl_nil]
    norm_num [loopBody, f, ratArith]
  · show some (estimateValue ratArith 1 1) = some (16 / 5)
    rw [estimateValue_rat 1 1 (by decide)]
    norm_num [midpointSum]
  · have h := visited32_eq_stridedSubset (ThreadData.mk 0 1 1 (1 : ℚ) 0) 0 1 1 rfl rfl rfl
      (by decide) (by decide) (by decide) fuel hfuel
    rw [h, hs]

theorem boundary_one_interval_one_worker_witness :
    visited 2 (ThreadData.mk 0 1 1 (1 : ℚ) 0) = some [0] ∧
      ratArith.div ratArith.one (ratArith.ofInt 1) = 1 ∧
      ratArith.mul (ratArith.add (ratArith.ofInt 0) ratArith.half) 1 = 1 / 2 ∧
      f ratArith (1 / 2) = 4 / (5 / 4) ∧
      ratArith.mul (f ratArith (1 / 2)) 1 = 16 / 5 ∧
      (∃ out, main ratArith atoi 0 2 ["prog", "1", "1"] = some out ∧
        out.thread_data = [ThreadData.mk 0 1 1 1 (16 / 5)] ∧
        estimate out = some (16 / 5) ∧
        main32 ratArith atoi 0 2 ["prog", "1", "1"] = some out) ∧
      visited32 2 (ThreadData.mk 0 1 1 (1 : ℚ) 0) = some [0] :=
  boundary_one_interval_one_worker atoi 0 2 ["prog", "1", "1"] (by decide) (by decide)
    (by decide) (by decide)

/-! ## Determinism and frame -/

theorem initThreadData_length {α : Type} (A : Arith α) (T N : Nat) (step : α) :
    (initThreadData A (T : Int) (N : Int) step).length = T := by
  simp [initThreadData]

/-- C10: the array of partial sums read after the join does not depend on the order in
which the workers ran.  For `N, T ≥ 1` and any two orders (permutations of `0, ..., T-1`,
each worker run to completion) the runs of the workers return the same array or both do not
return; two finished runs give the same array whatever fuel they were given; the array
`main` reads is that array, and two runs of `main` with the same `(N, T)` that return print
the same estimate, whatever the program name, the texts of the arguments and the measured
time.  While the loop counter cannot overflow the workers do return. -/
theorem estimate_deterministic {α : Type} (A : Arith α) (T N : Nat) (hN1 : 1 ≤ N)
    (hT1 : 1 ≤ T) (order1 order2 : List Nat) (h1 : order1.Perm (List.range T))
    (h2 : order2.Perm (List.range T)) (fuel1 fuel2 : Nat) :
    (∀ step : α,
      runWorkers (calculate_pi32 A fuel1) order1 (initThreadData A (T : Int) (N : Int) step) =
        runWorkers (calculate_pi32 A fuel1) order2
          (initThreadData A (T : Int) (N : Int) step)) ∧
    (∀ (step : α) (td1 td2 : List (ThreadData α)),
      runWorkers (calculate_pi32 A fuel1) order1 (initThreadData A (T : Int) (N : Int) step) =
        some td1 →
      runWorkers (calculate_pi32 A fuel2) order2 (initThreadData A (T : Int) (N : Int) step) =
        some td2 →
      td1 = td2) ∧
    (∀ (parse1 parse2 : String → Int) (e1 e2 : α) (argv1 argv2 : List String)
        (out1 out2 : Outcome α),
      argv1.length = 3 → argv2.length = 3 →
      parse1 (argv1.getD 1 "") = (N : Int) → parse1 (argv1.getD 2 "") = (T : Int) →
      parse2 (argv2.getD 1 "") = (N : Int) → parse2 (argv2.getD 2 "") = (T : Int) →
      main32 A parse1 e1 fuel1 argv1 = some out1 →
      main32 A parse2 e2 fuel2 argv2 = some out2 →
        runWorkers (calculate_pi32 A fuel1) order1
            (initThreadData A (T : Int) (N : Int) (A.div A.one (A.ofInt (N : Int)))) =
          some out1.thread_data ∧
        out1.thread_data = out2.thread_data ∧
        estimate out1 =
          some (reduce A out1.thread_data (A.div A.one (A.ofInt (N : Int)))) ∧
        estimate out1 = estimate out2) ∧
    (N - 1 + T ≤ 2147483647 → N + 1 ≤ fuel1 →
      ∀ step : α, ∃ td,
        runWorkers (calculate_pi32 A fuel1) order1
          (initThreadData A (T : Int) (N : Int) step) = some td) := by
  have hp1 : ∀ step : α, order1.Perm
      (List.range (initThreadData A (T : Int) (N : Int) step).length) := fun step => by
    rw [initThreadData_length]; exact h1
  have hp2 : ∀ step : α, order2.Perm
      (List.range (initThreadData A (T : Int) (N : Int) step).length) := fun step => by
    rw [initThreadData_length]; exact h2
  have hpr : ∀ step : α, (List.range T).Perm
      (List.range (initThreadData A (T : Int) (N : Int) step).length) := fun step => by
    rw [initThreadData_length]
  refine ⟨fun step => runWorkers_order_irrelevant _ _ order1 order2 (hp1 step) (hp2 step),
    fun step td1 td2 hr1 hr2 =>
      runWorkers32_result_unique A _ td1 td2 order1 order2 (hp1 step) (hp2 step) fuel1 fuel2
        hr1 hr2, ?_, ?_⟩
  · intro parse1 parse2 e1 e2 argv1 argv2 out1 out2 hl1 hl2 hN hT hN2 hT2 hm1 hm2
    have hpos : ¬ ((N : Int) ≤ 0 ∨ (T : Int) ≤ 0) := by omega
    rcases mainWith_inv A parse1 e1 _ argv1 out1 hm1 with ⟨hc, _⟩ | ⟨_, hc, _⟩ |
      ⟨_, _, _, td1, htd1, ho1⟩
    · exact absurd hl1 hc
    · rw [hN, hT] at hc
      exact absurd hc hpos
    · rcases mainWith_inv A parse2 e2 _ argv2 out2 hm2 with ⟨hc, _⟩ | ⟨_, hc, _⟩ |
        ⟨_, _, _, td2, htd2, ho2⟩
      · exact absurd hl2 hc
      · rw [hN2, hT2] at hc
        exact absurd hc hpos
      · rw [hN, hT, Int.toNat_ofNat] at htd1
        rw [hN2, hT2, Int.toNat_ofNat] at htd2
        have heq : td1 = td2 :=
          runWorkers32_result_unique A _ td1 td2 _ _ (hpr _) (hpr _) fuel1 fuel2 htd1 htd2
        have ht1 : out1.thread_data = td1 := by rw [ho1]
        have ht2 : out2.thread_data = td2 := by rw [ho2]
        have he1 : estimate out1 = some (reduce A td1 (A.div A.one (A.ofInt (N : Int)))) := by
          rw [ho1, hN]; rfl
        have he2 : estimate out2 = some (reduce A td2 (A.div A.one (A.ofInt (N : Int)))) := by
          rw [ho2, hN2]; rfl
        refine ⟨?_, by rw [ht1, ht2, heq], by rw [he1, ht1], by rw [he1, he2, heq]⟩
        rw [ht1, runWorkers_order_irrelevant _ _ order1 (List.range T) (hp1 _) (hpr _)]
        exact htd1
  · intro hbound hfuel step
    exact ⟨_, runWorkers_init_of A (calculate_pi32 A fuel1) T N step (fun w hw =>
      calculate_pi32_eq A _ w T N rfl rfl rfl hN1 hw hbound fuel1 hfuel) order1 h1⟩

theorem estimate_deterministic_witness :
    (∀ step : ℚ,
      runWorkers (calculate_pi32 ratArith 5) [2, 0, 1]
          (initThreadData ratArith ((3 : Nat) : Int) ((4 : Nat) : Int) step) =
        runWorkers (calculate_pi32 ratArith 5) [1, 2, 0]
          (initThreadData ratArith ((3 : Nat) : Int) ((4 : Nat) : Int) step)) ∧
    (∀ (step : ℚ) (td1 td2 : List (ThreadData ℚ)),
      runWorkers (calculate_pi32 ratArith 5) [2, 0, 1]
          (initThreadData ratArith ((3 : Nat) : Int) ((4 : Nat) : Int) step) = some td1 →
      runWorkers (calculate_pi32 ratArith 6) [1, 2, 0]
          (initThreadData ratArith ((3 : Nat) : Int) ((4 : Nat) : Int) step) = some td2 →
      td1 = td2) ∧
    (∀ (parse1 parse2 : String → Int) (e1 e2 : ℚ) (argv1 argv2 : List String)
        (out1 out2 : Outcome ℚ),
      argv1.length = 3 → argv2.length = 3 →
      parse1 (argv1.getD 1 "") = ((4 : Nat) : Int) →
      parse1 (argv1.getD 2 "") = ((3 : Nat) : Int) →
      parse2 (argv2.getD 1 "") = ((4 : Nat) : Int) →
      parse2 (argv2.getD 2 "") = ((3 : Nat) : Int) →
      main32 ratArith parse1 e1 5 argv1 = some out1 →
      main32 ratArith parse2 e2 6 argv2 = some out2 →
        runWorkers (calculate_pi32 ratArith 5) [2, 0, 1]
            (initThreadData ratArith ((3 : Nat) : Int) ((4 : Nat) : Int)
              (ratArith.div ratArith.one (ratArith.ofInt ((4 : Nat) : Int)))) =
          some out1.thread_data ∧
        out1.thread_data = out2.thread_data ∧
        estimate out1 =
          some (reduce ratArith out1.thread_data
            (ratArith.div ratArith.one (ratArith.ofInt ((4 : Nat) : Int)))) ∧
        estimate out1 = estimate out2) ∧
    (4 - 1 + 3 ≤ 2147483647 → 4 + 1 ≤ 5 →
      ∀ step : ℚ, ∃ td,
        runWorkers (calculate_pi32 ratArith 5) [2, 0, 1]
          (initThreadData ratArith ((3 : Nat) : Int) ((4 : Nat) : Int) step) = some td) :=
  estimate_deterministic ratArith 3 4 (by decide) (by decide) [2, 0, 1] [1, 2, 0] (by decide)
    (by decide) 5 6

/-- The index logs of the workers cover `{0, ..., N-1}` exactly once. -/
theorem exact_cover_of_bound {α : Type} (A : Arith α) (step : α) (T N : Nat)
    (hT : 1 ≤ T) (hN : 1 ≤ N) (hbound : N - 1 + T ≤ 2147483647) (fuel : Nat)
    (hfuel : N + 1 ≤ fuel) :
    (∀ w : Nat, w < T →
        visited32 fuel (ThreadData.mk (w : Int) (T : Int) (N : Int) step A.zero) =
          some (stridedSubset w T N)) ∧
      (∀ i : Nat, i < N → ∃! w, w < T ∧ (i : Int) ∈ stridedSubset w T N) ∧
      (∀ w : Nat, w < T →
        (stridedSubset w T N).Nodup ∧ ∀ x ∈ stridedSubset w T N, 0 ≤ x ∧ x < (N : Int)) ∧
      ((List.range T).flatMap (fun w => stridedSubset w T N)).Perm
        ((List.range N).map (fun (i : Nat) => (i : Int))) := by
  refine ⟨fun w hw => visited32_eq_stridedSubset _ w T N rfl rfl rfl hN hw hbound fuel hfuel,
    ?_, ?_, stridedSubset_flatMap_perm T N hT⟩
  · intro i hi
    refine ⟨i % T, ⟨Nat.mod_lt _ (by omega), ?_⟩, ?_⟩
    · refine (mem_stridedSubset _ T N _).2 ⟨by omega, by omega, ?_⟩
      exact_mod_cast rfl
    · rintro w ⟨_, hm⟩
      have := ((mem_stridedSubset w T N _).1 hm).2.2
      omega
  · intro w _
    refine ⟨(stridedSubset_sorted w T N).nodup, fun x hx => ?_⟩
    have := (mem_stridedSubset w T N x).1 hx
    exact ⟨this.1, this.2.1⟩

/-- The loop of worker `w` runs `⌈(N - w) / T⌉` times, and the counts add up to `N`. -/
theorem iteration_count_of_bound (T N w : Nat) (hT : 1 ≤ T) (hN : 1 ≤ N) (hw : w < T)
    (hbound : N - 1 + T ≤ 2147483647) (fuel : Nat) (hfuel : N + 1 ≤ fuel) :
    strideLoop32 (N : Int) (T : Int) (fun _ c => c + 1) fuel (w : Int) (0 : Nat) =
        some (stridedSubset w T N).length ∧
      (stridedSubset w T N).length = (if w < N then (N - w + T - 1) / T else 0) ∧
      (w < N → Int.ceil (((N : ℚ) - (w : ℚ)) / (T : ℚ)) =
        ((stridedSubset w T N).length : Int)) ∧
      ((List.range T).map (fun v => (stridedSubset v T N).length)).sum = N := by
  have hlen := stridedSubset_length w T N hw
  refine ⟨?_, hlen, ?_, sum_length_stridedSubset T N hT⟩
  · have hv := visited_eq_stridedSubset
      (ThreadData.mk (w : Int) (T : Int) (N : Int) (0 : ℚ) 0) w T N rfl rfl rfl hw fuel hfuel
    unfold visited at hv
    simp only at hv
    rw [strideLoop32_eq_strideLoop (N : Int) (T : Int) (by omega) (by omega) _ fuel (w : Int) 0
      (by omega) (by omega), strideLoop_eq_foldl, hv]
    simp [foldl_count_eq_length]
  · intro hwN
    rw [hlen, if_pos hwN, ← ceil_div_eq (N - w) T hT, Nat.cast_sub (Nat.le_of_lt hwN)]

/-- The run returns with exit status 0; in exact arithmetic its estimate is the midpoint
sum, whatever the worker count, and lies strictly between 2 and 4. -/
theorem main32_estimate_of_bound (parse : String → Int) (elapsed : ℚ) (fuel : Nat)
    (argv : List String) (T N : Nat) (hlen : argv.length = 3)
    (hN : parse (argv.getD 1 "") = (N : Int)) (hT : parse (argv.getD 2 "") = (T : Int))
    (hN1 : 1 ≤ N) (hT1 : 1 ≤ T) (hfuel : N + 1 ≤ fuel)
    (hbound : N - 1 + T ≤ 2147483647) :
    ∃ out,
      main32 ratArith parse elapsed fuel argv = some out ∧ out.exit_code = 0 ∧
      estimate out = some (midpointSum N) ∧ 2 < midpointSum N ∧ midpointSum N < 4 := by
  have hb := midpointSum_bounds N hN1
  refine ⟨successOutcome ratArith elapsed T N,
    main32_success ratArith parse elapsed fuel argv T N hlen hN hT hN1 hT1 hfuel hbound, rfl,
    ?_, hb.1, hb.2⟩
  show some (estimateValue ratArith T N) = some (midpointSum N)
  rw [estimateValue_rat T N hT1]

end Calki
